import Mathlib

/-!
Verification of the ros2_whisper transcript manager
(`transcript_manager/src/transcript_manager_node.cpp`).

The pure algorithms of the node (the LCS-with-gaps aligner, the merge
planner, serialization, deserialization and the inference polling loop)
are embedded shallowly below.  Classes that the node uses but whose
sources are not part of this repository snapshot (`Word`, `Transcript`,
the token helper functions) are modelled from the specification, each
marked by a doc comment starting with `Modelled from the spec:`.
-/

set_option maxHeartbeats 1000000

/-! ## LCS-with-gaps aligner (`lcs_indicies_`, lines 523-603) -/

/-- DP cell of `lcs_indicies_`: `DPEntry(length, gaps)`. -/
structure DPEntry where
  length : Nat
  gaps : Nat
deriving DecidableEq, Repr

/-- Mutable state of `lcs_indicies_` while the DP table is filled:
the `dp` table, the `prev` backpointer table (initialized `(-1,-1)`),
the running maximum `maxLength` and the cell `(endA, endB)` where it
was attained. -/
structure LcsState where
  dp : Nat → Nat → DPEntry
  prev : Nat → Nat → Int × Int
  maxLength : Nat
  endA : Int
  endB : Int

/-- Pointwise update of a two-index table (a single C++ array store). -/
def upd2 {α : Type} (f : Nat → Nat → α) (i j : Nat) (v : α) : Nat → Nat → α :=
  fun a b => if a = i ∧ b = j then v else f a b

/-- One gap relaxation of the DP fill loop: gated by `gaps < allowedGaps`
at the source cell and by a strict length improvement; adopts the source
length with one more gap and inherits the source's `prev` pointer. -/
def gapCell (G : Nat) (st : LcsState) (i j sa sb : Nat) : LcsState :=
  if (st.dp sa sb).gaps < G ∧ (st.dp i j).length < (st.dp sa sb).length then
    { st with
      dp := upd2 st.dp i j ⟨(st.dp sa sb).length, (st.dp sa sb).gaps + 1⟩,
      prev := upd2 st.prev i j (st.prev sa sb) }
  else st

/-- The dp/prev updates of one DP cell `(i, j)`: the match case, else the
three gap relaxations applied in order (skip A, skip B, skip both), each
reading the state the previous one left. -/
def cellStepPre (A B : List String) (G : Nat) (st : LcsState) (i j : Nat) : LcsState :=
  if A.getD (i-1) "" = B.getD (j-1) "" then
    { st with
      dp := upd2 st.dp i j ⟨(st.dp (i-1) (j-1)).length + 1, 0⟩,
      prev := upd2 st.prev i j ((i : Int) - 1, (j : Int) - 1) }
  else
    gapCell G (gapCell G (gapCell G st i j (i-1) j) i j i (j-1)) i j (i-1) (j-1)

/-- The `maxLength` tracking of `lcs_indicies_` with its `>=` comparison. -/
def maxTrack (st : LcsState) (i j : Nat) : LcsState :=
  if (st.dp i j).length ≥ st.maxLength then
    { st with maxLength := (st.dp i j).length, endA := (i : Int), endB := (j : Int) }
  else st

def cellStep (A B : List String) (G : Nat) (st : LcsState) (i j : Nat) : LcsState :=
  maxTrack (cellStepPre A B G st i j) i j

/-- Inner DP loop: process cells `(i, 1) .. (i, j)` of row `i` in order. -/
def fillRow (A B : List String) (G : Nat) (i : Nat) : Nat → LcsState → LcsState
  | 0, st => st
  | j+1, st => cellStep A B G (fillRow A B G i j st) i (j+1)

/-- Outer DP loop: process rows `1 .. i` in order, each through column `nB`. -/
def fillTable (A B : List String) (G : Nat) (nB : Nat) : Nat → LcsState → LcsState
  | 0, st => st
  | i+1, st => fillRow A B G (i+1) nB (fillTable A B G nB i st)

/-- Initial state of `lcs_indicies_`: all-zero `dp`, all-`(-1,-1)` `prev`,
`maxLength = 0`, `endIndexA = endIndexB = -1`. -/
def lcsInit : LcsState :=
  ⟨fun _ _ => ⟨0, 0⟩, fun _ _ => (-1, -1), 0, -1, -1⟩

/-- The fully filled DP state of `lcs_indicies_(A, B, G)`. -/
def lcsFill (A B : List String) (G : Nat) : LcsState :=
  fillTable A B G B.length A.length lcsInit

/-- The backtracking loop of `lcs_indicies_` (lines 591-596): follow `prev`
pointers, collecting pairs, until `(-1, -1)` is reached.  The C++ loop has
no fuel; on every reachable input the pointer chain is strictly decreasing
in both coordinates, so the conservative fuel used by `lcs_indicies_`
below never runs out. -/
def backtrack (prev : Nat → Nat → Int × Int) : Nat → Int × Int → List (Int × Int)
  | 0, _ => []
  | fuel+1, v =>
    if v.1 ≠ -1 ∧ v.2 ≠ -1 then
      v :: backtrack prev fuel (prev v.1.toNat v.2.toNat)
    else []

/-- `TranscriptManagerNode::lcs_indicies_` (lines 523-603): fill the DP
table, return empty lists when `maxLength == 0`, otherwise backtrack from
`prev[endIndexA][endIndexB]` and reverse both collected index lists. -/
def lcs_indicies_ (A B : List String) (G : Nat) : List Int × List Int :=
  let st := lcsFill A B G
  if st.maxLength = 0 then ([], [])
  else
    let pairs := backtrack st.prev (A.length + B.length + 2) (st.prev st.endA.toNat st.endB.toNat)
    ((pairs.map Prod.fst).reverse, (pairs.map Prod.snd).reverse)

/-! ## Data model

`Word` and `Transcript` live in headers that are not part of this
repository snapshot; they are modelled from the specification (section 3
and 4.3 of the spec). -/

/-- `SingleToken`: `{text, prob}`.  Probabilities are C++ floats; they
are modelled as rationals, which preserves every order comparison the
code performs on them. -/
structure SingleToken where
  text : String
  prob : ℚ
deriving DecidableEq, Repr

/-- Modelled from the spec: the `SegmentMetaData` payload of a segment
entry (`{end_token, duration, start}`), with times in milliseconds. -/
structure SegmentMetaData where
  end_token : SingleToken
  duration_ms : Int
  start_ms : Int
deriving DecidableEq, Repr

/-- Modelled from the spec: the `Word` variant (its header is not in this
snapshot).  Either a TextWord (token list, `is_punct` flag, mutable
`occurrences` initialized to 1) or a Segment marker, which participates
in the same occurrence accounting. -/
inductive Word
  | textWord (tokens : List SingleToken) (punct : Bool) (occurrences : Int)
  | segment (data : SegmentMetaData) (occurrences : Int)
deriving DecidableEq, Repr

/-- Concatenation of token texts (the derived text of a TextWord). -/
def joinText (ts : List SingleToken) : String :=
  ts.foldl (fun a t => a ++ t.text) ""

/-- Modelled from the spec: tag dispatch of the variant. -/
def Word.is_segment : Word → Bool
  | .textWord .. => false
  | .segment .. => true

/-- Modelled from the spec: the punctuation flag of a TextWord; segments
are not punctuation. -/
def Word.is_punct : Word → Bool
  | .textWord _ p _ => p
  | .segment .. => false

/-- Modelled from the spec: `Word::get()`, the derived textual form: the
concatenation of the tokens' texts (empty for segments). -/
def Word.get : Word → String
  | .textWord ts _ _ => joinText ts
  | .segment .. => ""

/-- Lowercase a string and trim leading/trailing whitespace (spelled out
character-wise; the kernel cannot evaluate `String.toLower`). -/
def lowerTrim (s : String) : String :=
  String.mk
    ((((s.data.map Char.toLower).dropWhile Char.isWhitespace).reverse.dropWhile
        Char.isWhitespace).reverse)

/-- Modelled from the spec: `Word::get_comparable()`: the text after
trimming leading/trailing whitespace and lowercasing; punctuation words
and segments have an empty comparable form. -/
def Word.get_comparable : Word → String
  | .textWord ts p _ => if p then "" else lowerTrim (joinText ts)
  | .segment .. => ""

/-- Modelled from the spec: `Word::get_prob()`.  The spec does not pin
down how a word's confidence aggregates its tokens' probabilities; it is
modelled as the minimum token probability (1 for an empty list), and for
a segment as its end token's probability.  The claims below depend only
on this being a function of the entry's content. -/
def Word.get_prob : Word → ℚ
  | .textWord ts _ _ => ts.foldl (fun a t => min a t.prob) 1
  | .segment d _ => d.end_token.prob

/-- Modelled from the spec: the per-entry occurrence counter. -/
def Word.get_occurrences : Word → Int
  | .textWord _ _ o => o
  | .segment _ o => o

/-- Add `d` to the occurrence counter of an entry. -/
def Word.add_occ : Word → Int → Word
  | .textWord ts p o, d => .textWord ts p (o + d)
  | .segment s o, d => .segment s (o + d)

/-- Default used for the (always in-range on reachable inputs) vector
accesses of the C++ code. -/
def dummyWord : Word := .textWord [] false 1

/-! ## Comparable projection (`merge_one_`, lines 133-156)

The planner builds, from an entry list, the list of non-empty comparable
strings together with the per-position count of skipped (non-comparable)
entries before each kept position. -/

/-- The comparable-projection loop of `merge_one_`, carrying
`skipped_so_far` in its accumulator `k`. -/
def compProjectAux : List Word → Nat → List String × List Nat
  | [], _ => ([], [])
  | w :: ws, k =>
    if w.get_comparable = "" then compProjectAux ws (k+1)
    else
      let r := compProjectAux ws k
      (w.get_comparable :: r.1, k :: r.2)

/-- `(comp_words, skipped_ids)` of an entry list (lines 133-156). -/
def compProject (ws : List Word) : List String × List Nat :=
  compProjectAux ws 0

/-! ## Edit operations and the merge planner (`merge_one_`, lines 170-282) -/

/-- `Transcript::Operation`, a tagged edit record.  The C++ `DECREMENT`
records sometimes carry a second index `-1`; it is unused by the store
and dropped here. -/
inductive Op
  | matched_word (a b : Nat)
  | insert (a b : Nat)
  | decrement (a : Nat)
  | conflict (a b : Nat)
  | merge_segments (a b : Nat)
deriving DecidableEq, Repr

/-- Rules 1 / 1.2 / 1.3 / 1__ of the inner merge loop (lines 227-278):
the second `if` chain, reached either directly or by fall-through from
rule 0.1.  Returns the emitted operations and the new cursors. -/
def ruleOneChain (old nw : List Word) (nextA nextB curA curB : Nat) :
    List Op × Nat × Nat :=
  if curA ≠ nextA ∧ curB ≠ nextB ∧
      (old.getD curA dummyWord).is_punct ∧ ¬ (nw.getD curB dummyWord).is_punct then
    ([.decrement curA, .conflict curA curB], curA + 1, curB + 1)
  else if curA ≠ nextA ∧ curB ≠ nextB then
    ([.conflict curA curB], curA + 1, curB + 1)
  else if curB ≠ nextB then
    ([.insert curA curB], curA, curB + 1)
  else
    ([.decrement curA], curA + 1, curB)

/-- One iteration of the inner merge loop (lines 198-279).  Rule 0.1
(segment-segment) pushes `MERGE_SEGMENTS` and then falls through to the
rule-1 chain (the C++ branch neither advances a cursor nor `continue`s);
rules 0.2 and 0.3 `continue` after advancing one cursor; otherwise the
rule-1 chain runs. -/
def innerStep (old nw : List Word) (nextA nextB curA curB : Nat) :
    List Op × Nat × Nat :=
  if curA ≠ nextA ∧ curB ≠ nextB ∧
      (old.getD curA dummyWord).is_segment ∧ (nw.getD curB dummyWord).is_segment then
    let r := ruleOneChain old nw nextA nextB curA curB
    (Op.merge_segments curA curB :: r.1, r.2)
  else if curA ≠ nextA ∧ (old.getD curA dummyWord).is_segment then
    ([.decrement curA, .decrement curA], curA + 1, curB)
  else if curB ≠ nextB ∧ (nw.getD curB dummyWord).is_segment then
    ([.insert curA curB], curA, curB + 1)
  else
    ruleOneChain old nw nextA nextB curA curB

/-- The inner merge loop `while (curA_id != nextA_id || curB_id != nextB_id)`
(lines 198-279).  Every iteration advances at least one cursor towards its
bound, so the fuel supplied by `planLoop` below never runs out on
reachable inputs. -/
def innerWalk (old nw : List Word) (nextA nextB : Nat) :
    Nat → Nat → Nat → List Op
  | 0, _, _ => []
  | fuel+1, curA, curB =>
    if curA = nextA ∧ curB = nextB then []
    else
      let r := innerStep old nw nextA nextB curA curB
      r.1 ++ innerWalk old nw nextA nextB fuel r.2.1 r.2.2

/-- The outer anchor loop of `merge_one_` (lines 173-282): for each anchor
pair translate the comparable-space indices to absolute ones via the skip
vectors, emit `MATCHED_WORD`, and walk the region up to the next anchor
(or to the array ends after the last anchor). -/
def planLoop (old nw : List Word) (skA skB : List Nat) :
    Int × Int → List (Int × Int) → List Op
  | (pA, pB), rest =>
    let pA_id := pA.toNat + skA.getD pA.toNat 0
    let pB_id := pB.toNat + skB.getD pB.toNat 0
    let next : Nat × Nat :=
      match rest with
      | [] => (old.length, nw.length)
      | (qA, qB) :: _ => (qA.toNat + skA.getD qA.toNat 0, qB.toNat + skB.getD qB.toNat 0)
    Op.matched_word pA_id pB_id ::
      (innerWalk old nw next.1 next.2 (next.1 + next.2 + 1) (pA_id + 1) (pB_id + 1) ++
        match rest with
        | [] => []
        | q :: rest2 => planLoop old nw skA skB q rest2)

/-- All pending operations the planner emits for one merge (lines
170-282), given the aligner's index lists and the skip vectors. -/
def planOps (old nw : List Word) (ia ib : List Int) (skA skB : List Nat) : List Op :=
  match ia.zip ib with
  | [] => []
  | p :: rest => planLoop old nw skA skB p rest

/-! ## Transcript store (modelled from the spec, section 4.3) -/

/-- Modelled from the spec: the Transcript state: an ordered entry list
plus the `stale_word_id` boundary cursor. -/
structure Transcript where
  entries : List Word
  stale_word_id : Int
deriving DecidableEq, Repr

/-- Modelled from the spec: the active tail from `stale_word_id`. -/
def Transcript.get_words_splice (t : Transcript) : List Word :=
  t.entries.drop t.stale_word_id.toNat

def Transcript.get_stale_word_id (t : Transcript) : Int :=
  t.stale_word_id

def Transcript.set_stale_word_id (t : Transcript) (v : Int) : Transcript :=
  { t with stale_word_id := v }

def Transcript.empty (t : Transcript) : Bool :=
  t.entries.isEmpty

/-- Modelled from the spec: `push_back` appends a batch at the tail. -/
def Transcript.push_back (t : Transcript) (ws : List Word) : Transcript :=
  { t with entries := t.entries ++ ws }

/-- In-place update of the `i`-th element of a list. -/
def listModify (f : Word → Word) : Nat → List Word → List Word
  | _, [] => []
  | 0, w :: ws => f w :: ws
  | n+1, w :: ws => w :: listModify f n ws

/-- Insertion at position `i`, shifting later entries right (insertion
past the end appends, as `std::vector::insert` at `end()`). -/
def listInsertAt (v : Word) : Nat → List Word → List Word
  | 0, ws => v :: ws
  | _+1, [] => [v]
  | n+1, w :: ws => w :: listInsertAt v n ws

/-- The `CONFLICT` replacement, applied to the entry at the target
position: when both sides are words and the update's word has strictly
greater probability, adopt its tokens and flag while preserving the
transcript entry's occurrences. -/
def conflictWith (nw : List Word) (b : Nat) : Word → Word
  | .textWord ts p o =>
    match nw.getD b dummyWord with
    | .textWord ts2 p2 _ =>
      if (Word.textWord ts p o).get_prob < (Word.textWord ts2 p2 0).get_prob then
        Word.textWord ts2 p2 o
      else Word.textWord ts p o
    | _ => Word.textWord ts p o
  | w => w

/-- The `MERGE_SEGMENTS` fusion, applied to the entry at the target
position: adopt the newer start and end token, extend the duration to
cover both ranges. -/
def mergeSegWith (nw : List Word) (b : Nat) : Word → Word
  | .segment d o =>
    match nw.getD b dummyWord with
    | .segment d2 _ =>
      Word.segment
        ⟨d2.end_token,
         max (d.start_ms + d.duration_ms) (d2.start_ms + d2.duration_ms) - d2.start_ms,
         d2.start_ms⟩ o
    | _ => Word.segment d o
  | w => w

/-- Modelled from the spec: the effect of one `EditOperation` (section
4.3 `run` semantics).  `shift` is the running index translation: the
stale-boundary offset plus the number of insertions already performed,
which realizes the spec's snapshot-index semantics because the planner
emits operations with non-decreasing indices.  `MATCHED_WORD` increments
`occurrences`; `DECREMENT` subtracts 1; `INSERT` inserts `new[b]`. -/
def applyOp (nw : List Word) (entries : List Word) (shift : Nat) :
    Op → List Word × Nat
  | .matched_word a _ => (listModify (fun w => w.add_occ 1) (a + shift) entries, shift)
  | .decrement a => (listModify (fun w => w.add_occ (-1)) (a + shift) entries, shift)
  | .insert a b => (listInsertAt (nw.getD b dummyWord) (a + shift) entries, shift + 1)
  | .conflict a b => (listModify (conflictWith nw b) (a + shift) entries, shift)
  | .merge_segments a b => (listModify (mergeSegWith nw b) (a + shift) entries, shift)

/-- Modelled from the spec: `Transcript::run(ops, new_entries)` applies
the ordered operation list atomically, translating the planner's
splice-relative snapshot indices by the stale offset and by the
insertions performed so far. -/
def Transcript.run (t : Transcript) (ops : List Op) (nw : List Word) : Transcript :=
  { t with
    entries := (ops.foldl (fun acc op => applyOp nw acc.1 acc.2 op)
      (t.entries, t.stale_word_id.toNat)).1 }

/-- Modelled from the spec: `clear_mistakes(threshold)` removes entries
whose `occurrences ≤ threshold`. -/
def Transcript.clear_mistakes (t : Transcript) (threshold : Int) : Transcript :=
  { t with entries := t.entries.filter (fun w => threshold < w.get_occurrences) }

/-- `allowed_gaps` as initialized by the node constructor (line 5). -/
def allowed_gaps : Nat := 4

/-- `TranscriptManagerNode::merge_one_` (lines 118-290): push the update
verbatim into an empty transcript; otherwise project both sides to
comparable strings, align with `lcs_indicies_`, push the update verbatim
when the alignment is empty, and otherwise plan, run, prune and advance
the stale boundary by `max(stale, stale + IA[0] - IB[0])`. -/
def merge_one_ (t : Transcript) (new_words : List Word) : Transcript :=
  let stale_id := t.get_stale_word_id
  if t.empty then t.push_back new_words
  else
    let old_words := t.get_words_splice
    let co := compProject old_words
    let cn := compProject new_words
    let r := lcs_indicies_ co.1 cn.1 allowed_gaps
    if r.1.isEmpty then t.push_back new_words
    else
      let pending_ops := planOps old_words new_words r.1 r.2 co.2 cn.2
      let t1 := (t.run pending_ops new_words).clear_mistakes (-1)
      t1.set_stale_word_id (max stale_id (stale_id + r.1.headD 0 - r.2.headD 0))

/-! ## Transcript serialization (`serialize_transcript_`, lines 315-332) -/

/-- The fields of the outgoing `AudioTranscript` message that
`serialize_transcript_` fills. -/
structure AudioTranscript where
  words : List String
  probs : List ℚ
  occ : List Int
  seg_start_words_id : List Nat
  seg_start_time : List Int
  seg_duration_ms : List Int
  active_index : Int
deriving DecidableEq, Repr

/-- `TranscriptManagerNode::serialize_transcript_` (lines 315-332):
iterate the entries in order; a segment contributes to the three segment
arrays and bumps `words_skipped`, a word contributes its text,
probability and occurrences; finally
`active_index = stale_word_id - words_skipped`. -/
def serializeStep (acc : AudioTranscript × Nat) (w : Word) : AudioTranscript × Nat :=
  match w with
  | .segment d _ =>
    ({ acc.1 with
        seg_start_words_id := acc.1.seg_start_words_id ++ [acc.1.words.length],
        seg_start_time := acc.1.seg_start_time ++ [d.start_ms],
        seg_duration_ms := acc.1.seg_duration_ms ++ [d.duration_ms] },
     acc.2 + 1)
  | .textWord .. =>
    ({ acc.1 with
        words := acc.1.words ++ [w.get],
        probs := acc.1.probs ++ [w.get_prob],
        occ := acc.1.occ ++ [w.get_occurrences] },
     acc.2)

def serialize_transcript_ (t : Transcript) : AudioTranscript :=
  let s := t.entries.foldl serializeStep (⟨[], [], [], [], [], [], 0⟩, 0)
  { s.1 with active_index := t.get_stale_word_id - s.2 }

/-- The quantity the spec names for `active_index`: the number of Segment
entries positioned before the stale boundary.  (Stated from the spec's
words, to be compared against what the code computes.) -/
def segmentsBeforeStale (t : Transcript) : Nat :=
  ((t.entries.take t.stale_word_id.toNat).filter (fun w => w.is_segment)).length

/-! ## Token deserialization (`deserialize_msg_`, lines 434-520) -/

/-- The fields of the incoming `WhisperTokens` message that
`deserialize_msg_` consumes.  The `stamp` is kept in milliseconds. -/
structure WhisperTokens where
  stamp_ms : Int
  token_texts : List String
  token_probs : List ℚ
  segment_start_token_idxs : List Int
  start_times : List Int
  end_times : List Int
deriving DecidableEq, Repr

/-- Modelled from the spec: segment timestamps arrive in a 10 ms
granularity and are multiplied by a fixed factor to obtain
milliseconds. -/
def whisper_ts_to_ms_factor : Int := 10

/-- Modelled from the spec: a whisper special token has the bracketed
underscore-delimited shape `[_XXX_]` and is skipped. -/
def is_special_token (texts : List String) (i : Nat) : Bool :=
  (texts.getD i "").startsWith "[_" && (texts.getD i "").endsWith "_]"

/-- Modelled from the spec: the punctuation-token classifier of
`whisper_util`; a token consisting of a single common punctuation mark.
The claims below depend only on some token being classified as
punctuation. -/
def my_ispunct (texts : List String) (i : Nat) : Bool :=
  texts.getD i "" ∈ [",", ".", "!", "?", ":", ";"]

/-- Modelled from the spec: the joiner deciding whether the next `k`
tokens form one composite token.  The spec leaves the trigger set open
("contractions, currency+number, numeric fragments"); modelled as the
currency case: a `$` token joins with its successor.  No claim below is
sensitive to the trigger set. -/
def join_tokens (texts : List String) (i : Nat) : Bool × Nat :=
  if texts.getD i "" = "$" ∧ i + 1 < texts.length then (true, 2) else (false, 1)

/-- Modelled from the spec: combined text of joined tokens is their
concatenation. -/
def combine_text (texts : List String) (i num : Nat) : String :=
  ((texts.drop i).take num).foldl (fun a s => a ++ s) ""

/-- Modelled from the spec: combined probability of joined tokens.  The
spec prescribes the geometric mean, which is irrational in general;
modelled as the minimum, which stays in `[0,1]`.  No claim below depends
on the combined value. -/
def combine_prob (probs : List ℚ) (i num : Nat) : ℚ :=
  ((probs.drop i).take num).foldl min 1

/-- Leading-whitespace test `std::isspace(token[0])` on a token text. -/
def leadingSpace (s : String) : Bool :=
  (s.data.headD 'x').isWhitespace

/-- The token loop of `deserialize_msg_` (lines 441-512), one call per
C++ iteration at token index `i`.  In order: the segment block (flush a
non-empty WIP, emit the segment with its end token, duration and start),
the leading-whitespace flush, then the special / punctuation / joiner /
plain classification.  The punctuation branch pushes `{word_wip}` without
an emptiness guard, exactly as the C++ does.  `fuel` only pays for the
missing structural recursion: every step advances `i` by at least one,
so the initial fuel `token_texts.length` never runs out. -/
def deserializeLoop (msg : WhisperTokens) :
    Nat → Nat → Nat → List SingleToken → List Word
  | 0, _, _, wip => if wip.isEmpty then [] else [Word.textWord wip false 1]
  | fuel+1, i, seg_ptr, wip =>
    if i < msg.token_texts.length then
      let n := msg.token_texts.length
      let segStep :
          List Word × List SingleToken × Nat :=
        if seg_ptr < msg.segment_start_token_idxs.length ∧
            (i : Int) = msg.segment_start_token_idxs.getD seg_ptr 0 then
          let flushed : List Word :=
            if wip.isEmpty then [] else [Word.textWord wip false 1]
          let end_id : Nat :=
            if seg_ptr = msg.segment_start_token_idxs.length - 1 then n - 1
            else (msg.segment_start_token_idxs.getD (seg_ptr+1) 0 - 1).toNat
          let et : SingleToken :=
            ⟨msg.token_texts.getD end_id "", msg.token_probs.getD end_id 0⟩
          let st_ms := msg.start_times.getD seg_ptr 0 * whisper_ts_to_ms_factor
          let en_ms := msg.end_times.getD seg_ptr 0 * whisper_ts_to_ms_factor
          (flushed ++ [Word.segment ⟨et, en_ms - st_ms, msg.stamp_ms + st_ms⟩ 1],
           [], seg_ptr + 1)
        else ([], wip, seg_ptr)
      let ws0 := segStep.1
      let wip0 := segStep.2.1
      let sp0 := segStep.2.2
      let wsStep : List Word × List SingleToken :=
        if ¬ wip0.isEmpty ∧ msg.token_texts.getD i "" ≠ "" ∧
            leadingSpace (msg.token_texts.getD i "") then
          (ws0 ++ [Word.textWord wip0 false 1], [])
        else (ws0, wip0)
      let ws1 := wsStep.1
      let wip1 := wsStep.2
      if is_special_token msg.token_texts i then
        ws1 ++ deserializeLoop msg fuel (i+1) sp0 wip1
      else if my_ispunct msg.token_texts i then
        ws1 ++ [Word.textWord wip1 false 1,
                Word.textWord [⟨msg.token_texts.getD i "", msg.token_probs.getD i 0⟩] true 1]
           ++ deserializeLoop msg fuel (i+1) sp0 []
      else if (join_tokens msg.token_texts i).1 then
        let num := (join_tokens msg.token_texts i).2
        ws1 ++ deserializeLoop msg fuel (i + num) sp0
          (wip1 ++ [⟨combine_text msg.token_texts i num, combine_prob msg.token_probs i num⟩])
      else
        ws1 ++ deserializeLoop msg fuel (i+1) sp0
          (wip1 ++ [⟨msg.token_texts.getD i "", msg.token_probs.getD i 0⟩])
    else
      if wip.isEmpty then [] else [Word.textWord wip false 1]

/-- `TranscriptManagerNode::deserialize_msg_` (lines 434-520). -/
def deserialize_msg_ (msg : WhisperTokens) : List Word :=
  deserializeLoop msg msg.token_texts.length 0 0 []

/-! ## The long-running inference handler (`on_inference_accepted_`,
lines 64-115)

The handler's control flow is modelled as the trace of its observable
actions, driven by an oracle `qe` telling whether the incoming ring is
empty at the k-th poll.  Real time is out of scope; the 15 ms sleep
constant is carried as data. -/

/-- Observable actions of the inference handler loop. -/
inductive HandlerEvent
  | check_timeout
  | check_cancel
  | sleep_ms (ms : Nat)
  | drain_and_publish
deriving DecidableEq, Repr

/-- The blocking wait `while (incoming_queue_->empty()) sleep_for(15ms)`
(lines 87-89): one `sleep_ms 15` per poll while `qe` reports the ring
empty; `none` when the fuel is exhausted with the ring still empty (the
C++ loop is still blocked at that point and has emitted no further
events). -/
def waitForData (qe : Nat → Bool) : Nat → Nat → List HandlerEvent × Option Nat
  | 0, t => ([], if qe t then none else some t)
  | f+1, t =>
    if qe t then
      let r := waitForData qe f (t+1)
      (HandlerEvent.sleep_ms 15 :: r.1, r.2)
    else ([], some t)

/-- The outer loop of `on_inference_accepted_` (lines 71-108): per
iteration one timeout check, one cancellation check, the blocking
empty-ring wait, then draining the ring and publishing feedback.
`outer` bounds the number of batch iterations, `wf` the number of polls
inside one blocking wait. -/
def handlerTrace (qe : Nat → Bool) : Nat → Nat → Nat → List HandlerEvent
  | 0, _, _ => []
  | outer+1, wf, t =>
    HandlerEvent.check_timeout :: HandlerEvent.check_cancel ::
      (let r := waitForData qe wf t
       r.1 ++
         match r.2 with
         | none => []
         | some t2 => HandlerEvent.drain_and_publish :: handlerTrace qe outer wf (t2+1))

/-- Occurrence count of an event in a trace. -/
def countEvent (e : HandlerEvent) (l : List HandlerEvent) : Nat :=
  (l.filter (fun x => x = e)).length

/-! ## Concrete words used by counterexamples below -/

/-- A one-token plain word with the given probability. -/
def mkWord (s : String) (p : ℚ) : Word := .textWord [⟨s, p⟩] false 1

/-- A one-token punctuation word. -/
def mkPunct (s : String) : Word := .textWord [⟨s, 1⟩] true 1

/-- A segment marker with the given start and duration. -/
def mkSeg (st dur : Int) : Word := .segment ⟨⟨"t", 1⟩, dur, st⟩ 1

/-- The cells written after the fill has processed rows `1..r-1` fully
and row `r` through column `c`. -/
def ProcCell (nB r c a b : Nat) : Prop :=
  1 ≤ a ∧ 1 ≤ b ∧ b ≤ nB ∧ (a < r ∨ (a = r ∧ b ≤ c))

/-- Every stored backpointer is the sentinel or a strictly smaller,
in-range, matching coordinate pair. -/
def PrevOK (A B : List String) (pv : Nat → Nat → Int × Int) : Prop :=
  ∀ a b : Nat, pv a b = (-1, -1) ∨
    ∃ p q : Nat, pv a b = ((p : Int), (q : Int)) ∧ p < a ∧ q < b ∧
      p < A.length ∧ q < B.length ∧ A.getD p "" = B.getD q ""

/-- Weakening of `PrevOK`: every stored backpointer strictly decreases
both coordinates. -/
def PrevDesc (pv : Nat → Nat → Int × Int) : Prop :=
  ∀ a b : Nat, pv a b = (-1, -1) ∨
    ∃ p q : Nat, pv a b = ((p : Int), (q : Int)) ∧ p < a ∧ q < b

/-- The fill-loop invariant at scan position `(r, c)`. -/
structure LcsInv (A B : List String) (r c : Nat) (st : LcsState) : Prop where
  unproc : ∀ a b : Nat, ¬ ProcCell B.length r c a b →
    st.dp a b = ⟨0, 0⟩ ∧ st.prev a b = (-1, -1)
  pval : ∀ a b : Nat, st.prev a b = (-1, -1) ∨
    ∃ p q : Nat, st.prev a b = ((p : Int), (q : Int)) ∧ p < a ∧ q < b ∧
      p + 1 ≤ r ∧ p < A.length ∧ q < B.length ∧ A.getD p "" = B.getD q ""
  dplen : ∀ a b : Nat, (st.dp a b).length ≤ min a b
  plen : ∀ a b : Nat,
    (st.dp a b).length = (backtrack st.prev (a + 1) (st.prev a b)).length
  pmax : st.maxLength = 0 ∨
    ∃ a b : Nat, ProcCell B.length r c a b ∧ a ≤ A.length ∧
      st.endA = (a : Int) ∧ st.endB = (b : Int) ∧
      (st.dp a b).length = st.maxLength

/-- A DP state in which nothing has matched: all-zero table, all-sentinel
backpointers, zero maximum. -/
def NoMatchState (st : LcsState) : Prop :=
  (∀ a b : Nat, st.dp a b = ⟨0, 0⟩) ∧ (∀ a b : Nat, st.prev a b = (-1, -1)) ∧
    st.maxLength = 0

/-- The fill state just before cell `(i, j)` is processed. -/
def midState (A B : List String) (G : Nat) (i j : Nat) : LcsState :=
  fillRow A B G i (j-1) (fillTable A B G B.length (i-1) lcsInit)

/-- `[0, 1, ..., n-1]` as `Int`s. -/
def intRange (n : Nat) : List Int :=
  (List.range n).map Int.ofNat

/-- The backtracking chain hanging off the diagonal cell `(i, i)`. -/
def diagChain : Nat → List (Int × Int)
  | 0 => [((0 : Int), (0 : Int))]
  | i+1 => (((i+1 : Nat) : Int), ((i+1 : Nat) : Int)) :: diagChain i

/-- Operations whose two indices coincide (the only shape a duplicate
merge produces). -/
def DiagOp (op : Op) : Prop :=
  ∃ x : Nat, op = .matched_word x x ∨ op = .conflict x x ∨ op = .merge_segments x x

/-- The occurrence-independent content of an entry: its tag, derived
text, punctuation flag and probability. -/
structure WordCore where
  seg : Bool
  text : String
  punct : Bool
  prob : ℚ
deriving DecidableEq, Repr

def Word.core (w : Word) : WordCore :=
  ⟨w.is_segment, w.get, w.is_punct, w.get_prob⟩

/-- The textual content of a transcript: the derived texts of its
non-segment entries, in order. -/
def textualContent : List Word → List String
  | [] => []
  | w :: ws => if w.is_segment then textualContent ws else w.get :: textualContent ws

/-- The word lists of the segment-coincidence counterexample. -/
def c2OldWords : List Word := [mkWord "hello" 1, mkSeg 0 1000, mkWord "world" 1]

def c2NewWords : List Word := [mkWord "hello" 1, mkSeg 10 1200, mkWord "world" 1]

/-- The operations `merge_one_` plans for the segment-coincidence
counterexample. -/
def c2Plan : List Op :=
  planOps c2OldWords c2NewWords
    (lcs_indicies_ (compProject c2OldWords).1 (compProject c2NewWords).1 allowed_gaps).1
    (lcs_indicies_ (compProject c2OldWords).1 (compProject c2NewWords).1 allowed_gaps).2
    (compProject c2OldWords).2 (compProject c2NewWords).2

/-- The two-merge scenario of the occurrence counterexample: `b` is
decremented to occurrence 0 by the second merge yet survives
`clear_mistakes(-1)`. -/
def c3Transcript : Transcript :=
  merge_one_ (merge_one_ ⟨[], 0⟩ [mkWord "a" 1, mkWord "b" 1, mkWord "c" 1])
    [mkWord "a" 1, mkWord "c" 1]

/-- A transcript with its only segment **after** the stale boundary. -/
def c4Transcript : Transcript := ⟨[mkWord "a" 1, mkSeg 0 100], 1⟩

/-- An update with no comparable word (a lone punctuation mark). -/
def c6Punct : List Word := [mkPunct ","]

/-! ## Correctness of the aligner

The DP fill is analyzed through an invariant over the scan position:
when the fill stands at row `r`, column `c`, exactly the cells of
`ProcCell` have been written; every stored backpointer is either the
sentinel or a strictly smaller matching coordinate pair; the length
stored in a cell equals the length of the backtracking chain hanging off
its backpointer; and `(endA, endB)` is a processed cell realizing
`maxLength`. -/

theorem LcsInv.prevOK {A B : List String} {r c : Nat} {st : LcsState}
    (h : LcsInv A B r c st) : PrevOK A B st.prev := by
  intro a b
  rcases h.pval a b with h0 | ⟨p, q, hv, h1, h2, _, h4, h5, h6⟩
  · exact Or.inl h0
  · exact Or.inr ⟨p, q, hv, h1, h2, h4, h5, h6⟩

theorem upd2_same {α : Type} (f : Nat → Nat → α) (i j : Nat) (v : α) :
    upd2 f i j v i j = v := by
  simp [upd2]

theorem upd2_ne {α : Type} (f : Nat → Nat → α) (i j a b : Nat) (v : α)
    (h : ¬ (a = i ∧ b = j)) : upd2 f i j v a b = f a b := by
  simp only [upd2, if_neg h]

theorem gapCell_dp_off {G : Nat} {st : LcsState} {i j sa sb a b : Nat}
    (h : ¬ (a = i ∧ b = j)) : (gapCell G st i j sa sb).dp a b = st.dp a b := by
  unfold gapCell
  split <;> simp [upd2_ne _ _ _ _ _ _ h]

theorem gapCell_prev_off {G : Nat} {st : LcsState} {i j sa sb a b : Nat}
    (h : ¬ (a = i ∧ b = j)) : (gapCell G st i j sa sb).prev a b = st.prev a b := by
  unfold gapCell
  split <;> simp [upd2_ne _ _ _ _ _ _ h]

theorem gapCell_max {G : Nat} {st : LcsState} {i j sa sb : Nat} :
    (gapCell G st i j sa sb).maxLength = st.maxLength ∧
    (gapCell G st i j sa sb).endA = st.endA ∧
    (gapCell G st i j sa sb).endB = st.endB := by
  unfold gapCell
  split <;> exact ⟨rfl, rfl, rfl⟩

/-- Outcome of one gap relaxation at its target cell: unchanged, or the
source length (strictly larger) adopted together with the source's
backpointer. -/
theorem gapCell_cell {G : Nat} {st : LcsState} {i j sa sb : Nat} :
    ((gapCell G st i j sa sb).dp i j = st.dp i j ∧
      (gapCell G st i j sa sb).prev i j = st.prev i j) ∨
    (((gapCell G st i j sa sb).dp i j).length = (st.dp sa sb).length ∧
      (gapCell G st i j sa sb).prev i j = st.prev sa sb ∧
      (st.dp i j).length < (st.dp sa sb).length) := by
  unfold gapCell
  split
  · next hcond =>
    right
    refine ⟨?_, ?_, hcond.2⟩ <;> simp [upd2_same]
  · exact Or.inl ⟨rfl, rfl⟩

theorem maxTrack_dp {st : LcsState} {i j a b : Nat} :
    (maxTrack st i j).dp a b = st.dp a b := by
  unfold maxTrack; split <;> rfl

theorem maxTrack_prev {st : LcsState} {i j a b : Nat} :
    (maxTrack st i j).prev a b = st.prev a b := by
  unfold maxTrack; split <;> rfl

theorem cellStepPre_max {A B : List String} {G : Nat} {st : LcsState} {i j : Nat} :
    (cellStepPre A B G st i j).maxLength = st.maxLength ∧
    (cellStepPre A B G st i j).endA = st.endA ∧
    (cellStepPre A B G st i j).endB = st.endB := by
  unfold cellStepPre
  split
  · exact ⟨rfl, rfl, rfl⟩
  · exact ⟨by rw [gapCell_max.1, gapCell_max.1, gapCell_max.1],
      by rw [gapCell_max.2.1, gapCell_max.2.1, gapCell_max.2.1],
      by rw [gapCell_max.2.2, gapCell_max.2.2, gapCell_max.2.2]⟩

theorem cellStepPre_dp_off {A B : List String} {G : Nat} {st : LcsState} {i j a b : Nat}
    (h : ¬ (a = i ∧ b = j)) :
    (cellStepPre A B G st i j).dp a b = st.dp a b := by
  unfold cellStepPre
  split
  · simp [upd2_ne _ _ _ _ _ _ h]
  · rw [gapCell_dp_off h, gapCell_dp_off h, gapCell_dp_off h]

theorem cellStepPre_prev_off {A B : List String} {G : Nat} {st : LcsState} {i j a b : Nat}
    (h : ¬ (a = i ∧ b = j)) :
    (cellStepPre A B G st i j).prev a b = st.prev a b := by
  unfold cellStepPre
  split
  · simp [upd2_ne _ _ _ _ _ _ h]
  · rw [gapCell_prev_off h, gapCell_prev_off h, gapCell_prev_off h]

theorem cellStep_dp_off {A B : List String} {G : Nat} {st : LcsState} {i j a b : Nat}
    (h : ¬ (a = i ∧ b = j)) :
    (cellStep A B G st i j).dp a b = st.dp a b := by
  unfold cellStep
  rw [maxTrack_dp, cellStepPre_dp_off h]

theorem cellStep_prev_off {A B : List String} {G : Nat} {st : LcsState} {i j a b : Nat}
    (h : ¬ (a = i ∧ b = j)) :
    (cellStep A B G st i j).prev a b = st.prev a b := by
  unfold cellStep
  rw [maxTrack_prev, cellStepPre_prev_off h]

/-- Outcome of the dp/prev updates at the target cell: either the match
case fired, or nothing changed, or one of the three gap relaxations was
the last to fire, adopting that source's length and backpointer. -/
theorem cellStepPre_cell {A B : List String} {G : Nat} {st : LcsState} {i j : Nat}
    (hi : 1 ≤ i) (hj : 1 ≤ j) :
    (A.getD (i-1) "" = B.getD (j-1) "" ∧
      (cellStepPre A B G st i j).dp i j = ⟨(st.dp (i-1) (j-1)).length + 1, 0⟩ ∧
      (cellStepPre A B G st i j).prev i j = ((i : Int) - 1, (j : Int) - 1)) ∨
    (A.getD (i-1) "" ≠ B.getD (j-1) "" ∧
      (((cellStepPre A B G st i j).dp i j = st.dp i j ∧
        (cellStepPre A B G st i j).prev i j = st.prev i j) ∨
      (∃ sa sb : Nat,
        ((sa = i-1 ∧ sb = j) ∨ (sa = i ∧ sb = j-1) ∨ (sa = i-1 ∧ sb = j-1)) ∧
        ((cellStepPre A B G st i j).dp i j).length = (st.dp sa sb).length ∧
        (cellStepPre A B G st i j).prev i j = st.prev sa sb))) := by
  have hB : ¬ (i = i ∧ (j-1 : Nat) = j) := by omega
  have hC : ¬ ((i-1 : Nat) = i ∧ (j-1 : Nat) = j) := by omega
  unfold cellStepPre
  split
  · next hm => exact Or.inl ⟨hm, by simp [upd2_same], by simp [upd2_same]⟩
  · next hm =>
    refine Or.inr ⟨hm, ?_⟩
    generalize hT1 : gapCell G st i j (i-1) j = t1
    generalize hT2 : gapCell G t1 i j i (j-1) = t2
    have t1dpB : t1.dp i (j-1) = st.dp i (j-1) := by
      rw [← hT1, gapCell_dp_off hB]
    have t1pvB : t1.prev i (j-1) = st.prev i (j-1) := by
      rw [← hT1, gapCell_prev_off hB]
    have t2dpC : t2.dp (i-1) (j-1) = st.dp (i-1) (j-1) := by
      rw [← hT2, gapCell_dp_off hC, ← hT1, gapCell_dp_off hC]
    have t2pvC : t2.prev (i-1) (j-1) = st.prev (i-1) (j-1) := by
      rw [← hT2, gapCell_prev_off hC, ← hT1, gapCell_prev_off hC]
    rcases (@gapCell_cell G t2 i j (i-1) (j-1)) with
      ⟨d3, p3⟩ | ⟨d3, p3, _⟩
    · -- the third relaxation did not fire
      rw [d3, p3]
      have o2 := @gapCell_cell G t1 i j i (j-1)
      rw [hT2] at o2
      rcases o2 with ⟨d2, p2⟩ | ⟨d2, p2, _⟩
      · -- the second did not fire either
        rw [d2, p2]
        have o1 := @gapCell_cell G st i j (i-1) j
        rw [hT1] at o1
        rcases o1 with ⟨d1, p1⟩ | ⟨d1, p1, _⟩
        · exact Or.inl ⟨d1, p1⟩
        · exact Or.inr ⟨i-1, j, Or.inl ⟨rfl, rfl⟩, d1, p1⟩
      · -- the second relaxation fired last
        rw [t1dpB] at d2
        rw [t1pvB] at p2
        exact Or.inr ⟨i, j-1, Or.inr (Or.inl ⟨rfl, rfl⟩), d2, p2⟩
    · -- the third relaxation fired last
      rw [t2dpC] at d3
      rw [t2pvC] at p3
      exact Or.inr ⟨i-1, j-1, Or.inr (Or.inr ⟨rfl, rfl⟩), d3, p3⟩

/-- Outcome of the `maxLength` tracking at `(i, j)`. -/
theorem maxTrack_outcome (st : LcsState) (i j : Nat) :
    ((maxTrack st i j).maxLength = (st.dp i j).length ∧
      (maxTrack st i j).endA = (i : Int) ∧ (maxTrack st i j).endB = (j : Int) ∧
      st.maxLength ≤ (st.dp i j).length) ∨
    ((maxTrack st i j).maxLength = st.maxLength ∧
      (maxTrack st i j).endA = st.endA ∧ (maxTrack st i j).endB = st.endB ∧
      (st.dp i j).length < st.maxLength) := by
  unfold maxTrack
  split
  · next h => exact Or.inl ⟨rfl, rfl, rfl, h⟩
  · next h => exact Or.inr ⟨rfl, rfl, rfl, by omega⟩

theorem PrevOK.desc {A B : List String} {pv : Nat → Nat → Int × Int}
    (h : PrevOK A B pv) : PrevDesc pv := by
  intro a b
  rcases h a b with h0 | ⟨p, q, hv, h1, h2, _, _, _⟩
  · exact Or.inl h0
  · exact Or.inr ⟨p, q, hv, h1, h2⟩

theorem backtrack_nil (pv : Nat → Nat → Int × Int) (f : Nat) :
    backtrack pv f (-1, -1) = [] := by
  cases f <;> simp [backtrack]

theorem backtrack_cast (pv : Nat → Nat → Int × Int) (f p q : Nat) :
    backtrack pv (f+1) ((p : Int), (q : Int)) =
      ((p : Int), (q : Int)) :: backtrack pv f (pv p q) := by
  have h1 : ((p : Int) ≠ -1 ∧ (q : Int) ≠ -1) := by omega
  simp only [backtrack, if_pos h1, Int.toNat_natCast]

/-- The backtracking chain is insensitive to any sufficiently large fuel. -/
theorem backtrack_fuel {pv : Nat → Nat → Int × Int} (h : PrevDesc pv) :
    ∀ p q f g : Nat, p < f → p < g →
      backtrack pv f ((p : Int), (q : Int)) = backtrack pv g ((p : Int), (q : Int)) := by
  intro p
  induction p using Nat.strong_induction_on with
  | _ p IH =>
    intro q f g hf hg
    obtain ⟨f', rfl⟩ : ∃ f', f = f'+1 := ⟨f-1, by omega⟩
    obtain ⟨g', rfl⟩ : ∃ g', g = g'+1 := ⟨g-1, by omega⟩
    rw [backtrack_cast, backtrack_cast]
    rcases h p q with h0 | ⟨p', q', hv, hp', _⟩
    · rw [h0, backtrack_nil, backtrack_nil]
    · rw [hv, IH p' hp' q' f' g' (by omega) (by omega)]

/-- The backtracking chain from a low starting point only reads cells in
rows below `r`, so it is insensitive to table changes at or above row
`r`. -/
theorem backtrack_agree_low {pv pv' : Nat → Nat → Int × Int} (h : PrevDesc pv) (r : Nat)
    (agree : ∀ a b : Nat, a < r → pv' a b = pv a b) :
    ∀ f p q : Nat, p < r →
      backtrack pv' f ((p : Int), (q : Int)) = backtrack pv f ((p : Int), (q : Int)) := by
  intro f
  induction f with
  | zero => intro p q _; rfl
  | succ f IH =>
    intro p q hp
    rw [backtrack_cast, backtrack_cast, agree p q hp]
    rcases h p q with h0 | ⟨p', q', hv, hp', _⟩
    · rw [h0, backtrack_nil, backtrack_nil]
    · rw [hv, IH p' q' (by omega)]

/-- Every collected pair of a backtracking chain started at a matching
in-range coordinate is itself matching and in range, and consecutive
pairs strictly decrease in both coordinates. -/
theorem backtrack_good {A B : List String} {pv : Nat → Nat → Int × Int}
    (hOK : PrevOK A B pv) :
    ∀ p q f : Nat, p < f → p < A.length → q < B.length → A.getD p "" = B.getD q "" →
      List.Chain' (fun x y : Int × Int => y.1 < x.1 ∧ y.2 < x.2)
          (backtrack pv f ((p : Int), (q : Int))) ∧
      ∀ v ∈ backtrack pv f ((p : Int), (q : Int)), ∃ p2 q2 : Nat,
        v = ((p2 : Int), (q2 : Int)) ∧ p2 ≤ p ∧ q2 ≤ q ∧ p2 < A.length ∧ q2 < B.length ∧
        A.getD p2 "" = B.getD q2 "" := by
  intro p
  induction p using Nat.strong_induction_on with
  | _ p IH =>
    intro q f hf hpA hqB hm
    obtain ⟨f', rfl⟩ : ∃ f', f = f'+1 := ⟨f-1, by omega⟩
    rw [backtrack_cast]
    rcases hOK p q with h0 | ⟨p', q', hv, hp', hq', hp'A, hq'B, hm'⟩
    · rw [h0, backtrack_nil]
      refine ⟨List.chain'_singleton _, ?_⟩
      intro v hvm
      simp only [List.mem_singleton] at hvm
      exact ⟨p, q, hvm, le_refl _, le_refl _, hpA, hqB, hm⟩
    · rw [hv]
      have hrec := IH p' hp' q' f' (by omega) hp'A hq'B hm'
      refine ⟨?_, ?_⟩
      · refine List.Chain'.cons' hrec.1 ?_
        intro y hy
        obtain ⟨f'', rfl⟩ : ∃ f'', f' = f''+1 := ⟨f'-1, by omega⟩
        rw [backtrack_cast] at hy
        simp only [List.head?_cons, Option.mem_def, Option.some.injEq] at hy
        subst hy
        refine ⟨?_, ?_⟩
        · show ((p' : Int)) < ((p : Int))
          exact_mod_cast hp'
        · show ((q' : Int)) < ((q : Int))
          exact_mod_cast hq'
      · intro v hvm
        rcases List.mem_cons.mp hvm with rfl | hvm
        · exact ⟨p, q, rfl, le_refl _, le_refl _, hpA, hqB, hm⟩
        · obtain ⟨p2, q2, rfl, h1, h2, h3, h4, h5⟩ := hrec.2 v hvm
          exact ⟨p2, q2, rfl, by omega, by omega, h3, h4, h5⟩

/-- `plen` at any sufficiently large fuel. -/
theorem LcsInv.plen_any {A B : List String} {r c : Nat} {st : LcsState}
    (inv : LcsInv A B r c st) (a b f : Nat) (hf : a ≤ f) :
    (st.dp a b).length = (backtrack st.prev f (st.prev a b)).length := by
  rcases inv.pval a b with h0 | ⟨p, q, hv, hp1, _, _, _, _, _⟩
  · have h1 := inv.plen a b
    rw [h0, backtrack_nil] at h1 ⊢
    exact h1
  · have h1 := inv.plen a b
    rw [hv] at h1 ⊢
    rw [backtrack_fuel inv.prevOK.desc p q f (a+1) (by omega) (by omega)]
    exact h1

/-- Processing one cell preserves the fill-loop invariant. -/
theorem cellStep_inv {A B : List String} {G : Nat} {st : LcsState} {r c : Nat}
    (inv : LcsInv A B r c st) (hr1 : 1 ≤ r) (hrA : r ≤ A.length) (hc : c < B.length) :
    LcsInv A B r (c+1) (cellStep A B G st r (c+1)) := by
  have hcs : cellStep A B G st r (c+1) =
      maxTrack (cellStepPre A B G st r (c+1)) r (c+1) := rfl
  have hnot : ¬ ProcCell B.length r c r (c+1) := by
    unfold ProcCell; omega
  have hcell0 := inv.unproc r (c+1) hnot
  have hproc_mono : ∀ a b : Nat, ProcCell B.length r c a b → ProcCell B.length r (c+1) a b := by
    intro a b; unfold ProcCell; omega
  have hoff : ∀ a b : Nat, ¬ (a = r ∧ b = c+1) →
      (cellStep A B G st r (c+1)).dp a b = st.dp a b ∧
      (cellStep A B G st r (c+1)).prev a b = st.prev a b := by
    intro a b h
    exact ⟨cellStep_dp_off h, cellStep_prev_off h⟩
  have hagree : ∀ a b : Nat, a < r → (cellStep A B G st r (c+1)).prev a b = st.prev a b :=
    fun a b h => (hoff a b (by omega)).2
  have hchain : ∀ f p q : Nat, p < r →
      backtrack (cellStep A B G st r (c+1)).prev f ((p : Int), (q : Int)) =
      backtrack st.prev f ((p : Int), (q : Int)) :=
    fun f p q hp => backtrack_agree_low inv.prevOK.desc r hagree f p q hp
  have hcellpre := @cellStepPre_cell A B G st r (c+1) hr1 (by omega)
  simp only [Nat.add_sub_cancel] at hcellpre
  have hdp_tr : (cellStep A B G st r (c+1)).dp r (c+1) =
      (cellStepPre A B G st r (c+1)).dp r (c+1) := by
    rw [hcs]; exact maxTrack_dp
  have hpv_tr : (cellStep A B G st r (c+1)).prev r (c+1) =
      (cellStepPre A B G st r (c+1)).prev r (c+1) := by
    rw [hcs]; exact maxTrack_prev
  refine ⟨?_, ?_, ?_, ?_, ?_⟩
  · -- unproc
    intro a b hnp
    have hne : ¬ (a = r ∧ b = c+1) := by
      intro ⟨ha, hb⟩
      subst ha; subst hb
      exact hnp (by unfold ProcCell; omega)
    rw [(hoff a b hne).1, (hoff a b hne).2]
    exact ⟨(inv.unproc a b fun hp => hnp (hproc_mono a b hp)).1,
      (inv.unproc a b fun hp => hnp (hproc_mono a b hp)).2⟩
  · -- pval
    intro a b
    by_cases hab : r = a ∧ c+1 = b
    · obtain ⟨rfl, rfl⟩ := hab
      rw [hpv_tr]
      rcases hcellpre with ⟨hm, _, hpv⟩ | ⟨_, hrest⟩
      · right
        refine ⟨r-1, c, ?_, by omega, by omega, by omega, by omega, hc, hm⟩
        rw [hpv]
        simp only [Prod.mk.injEq]
        constructor <;> omega
      · rcases hrest with ⟨_, hpv⟩ | ⟨sa, sb, hsrc, _, hpv⟩
        · left
          rw [hpv, hcell0.2]
        · rw [hpv]
          rcases inv.pval sa sb with h0 | ⟨p, q, hv, hp1, hq1, hpr, hpA, hqB, hmm⟩
          · exact Or.inl h0
          · right
            refine ⟨p, q, hv, by omega, ?_, hpr, hpA, hqB, hmm⟩
            rcases hsrc with ⟨_, rfl⟩ | ⟨_, rfl⟩ | ⟨_, rfl⟩ <;> omega
    · have hab2 : ¬ (a = r ∧ b = c+1) := fun h => hab ⟨h.1.symm, h.2.symm⟩
      rw [(hoff a b hab2).2]
      exact inv.pval a b
  · -- dplen
    intro a b
    by_cases hab : r = a ∧ c+1 = b
    · obtain ⟨rfl, rfl⟩ := hab
      rw [hdp_tr]
      rcases hcellpre with ⟨_, hdp, _⟩ | ⟨_, hrest⟩
      · rw [hdp]
        have h1 := inv.dplen (r-1) c
        simp only [DPEntry.length] at *
        omega
      · rcases hrest with ⟨hdp, _⟩ | ⟨sa, sb, hsrc, hdp, _⟩
        · rw [hdp]; exact inv.dplen r (c+1)
        · rw [hdp]
          have h1 := inv.dplen sa sb
          rcases hsrc with ⟨rfl, rfl⟩ | ⟨rfl, rfl⟩ | ⟨rfl, rfl⟩ <;> omega
    · have hab2 : ¬ (a = r ∧ b = c+1) := fun h => hab ⟨h.1.symm, h.2.symm⟩
      rw [(hoff a b hab2).1]
      exact inv.dplen a b
  · -- plen
    intro a b
    by_cases hab : r = a ∧ c+1 = b
    · obtain ⟨rfl, rfl⟩ := hab
      rcases hcellpre with ⟨_, hdp, hpv⟩ | ⟨_, hrest⟩
      · -- match case
        have e1 : (cellStep A B G st r (c+1)).dp r (c+1) =
            ⟨(st.dp (r-1) c).length + 1, 0⟩ := by rw [hdp_tr, hdp]
        have e2 : (cellStep A B G st r (c+1)).prev r (c+1) =
            (((r-1 : Nat) : Int), ((c : Nat) : Int)) := by
          rw [hpv_tr, hpv]
          simp only [Prod.mk.injEq]
          constructor <;> omega
        rw [e1, e2, backtrack_cast]
        have e3 : (cellStep A B G st r (c+1)).prev (r-1) c = st.prev (r-1) c :=
          (hoff (r-1) c (by omega)).2
        rw [e3]
        rcases inv.pval (r-1) c with h0 | ⟨p, q, hv, hp1, _, _, _, _, _⟩
        · have h1 := inv.plen (r-1) c
          rw [h0, backtrack_nil] at h1 ⊢
          simp [h1]
        · rw [hv, hchain r p q (by omega)]
          have h1 := inv.plen_any (r-1) c r (by omega)
          rw [hv] at h1
          simp [h1]
      · rcases hrest with ⟨hdp, hpv⟩ | ⟨sa, sb, hsrc, hdp, hpv⟩
        · -- nothing fired: the cell keeps its initial value
          have e1 : (cellStep A B G st r (c+1)).dp r (c+1) = ⟨0, 0⟩ := by
            rw [hdp_tr, hdp, hcell0.1]
          have e2 : (cellStep A B G st r (c+1)).prev r (c+1) = (-1, -1) := by
            rw [hpv_tr, hpv, hcell0.2]
          rw [e1, e2, backtrack_nil]
          rfl
        · -- a gap relaxation fired
          have hsa : sa ≤ r ∧ sb ≤ c+1 := by
            rcases hsrc with ⟨rfl, rfl⟩ | ⟨rfl, rfl⟩ | ⟨rfl, rfl⟩ <;> omega
          have e1 : ((cellStep A B G st r (c+1)).dp r (c+1)).length =
              (st.dp sa sb).length := by rw [hdp_tr, hdp]
          have e2 : (cellStep A B G st r (c+1)).prev r (c+1) = st.prev sa sb := by
            rw [hpv_tr, hpv]
          rw [e1, e2]
          rcases inv.pval sa sb with h0 | ⟨p, q, hv, hp1, _, hpr, _, _, _⟩
          · have h1 := inv.plen sa sb
            rw [h0, backtrack_nil] at h1 ⊢
            exact h1
          · rw [hv, hchain (r+1) p q (by omega)]
            have h1 := inv.plen_any sa sb (r+1) (by omega)
            rw [hv] at h1
            exact h1
    · have hab2 : ¬ (a = r ∧ b = c+1) := fun h => hab ⟨h.1.symm, h.2.symm⟩
      rw [(hoff a b hab2).1, (hoff a b hab2).2]
      rcases inv.pval a b with h0 | ⟨p, q, hv, hp1, _, hpr, _, _, _⟩
      · have h1 := inv.plen a b
        rw [h0, backtrack_nil] at h1 ⊢
        exact h1
      · rw [hv, hchain (a+1) p q (by omega)]
        have h1 := inv.plen a b
        rw [hv] at h1
        exact h1
  · -- pmax
    rcases maxTrack_outcome (cellStepPre A B G st r (c+1)) r (c+1) with
      ⟨hm1, he1, he2, _⟩ | ⟨hm1, he1, he2, _⟩
    · right
      refine ⟨r, c+1, by unfold ProcCell; omega, hrA, ?_, ?_, ?_⟩
      · rw [hcs, he1]
      · rw [hcs, he2]
      · rw [hdp_tr, hcs, hm1]
    · rcases inv.pmax with h0 | ⟨a0, b0, hproc0, ha0, hea, heb, hdp0⟩
      · left
        rw [hcs, hm1, cellStepPre_max.1]
        exact h0
      · right
        refine ⟨a0, b0, hproc_mono _ _ hproc0, ha0, ?_, ?_, ?_⟩
        · rw [hcs, he1, cellStepPre_max.2.1]
          exact hea
        · rw [hcs, he2, cellStepPre_max.2.2]
          exact heb
        · have hne : ¬ (a0 = r ∧ b0 = c+1) := by
            intro ⟨ha, hb⟩
            subst ha; subst hb
            exact hnot hproc0
          rw [(hoff a0 b0 hne).1, hcs, hm1, cellStepPre_max.1]
          exact hdp0

theorem lcsInit_inv (A B : List String) : LcsInv A B 1 0 lcsInit := by
  refine ⟨?_, ?_, ?_, ?_, ?_⟩
  · intro a b _
    exact ⟨rfl, rfl⟩
  · intro a b
    exact Or.inl rfl
  · intro a b
    simp [lcsInit]
  · intro a b
    rw [show lcsInit.prev a b = (-1, -1) from rfl, backtrack_nil]
    rfl
  · exact Or.inl rfl

theorem lcsInv_row_end {A B : List String} {r : Nat} {st : LcsState}
    (inv : LcsInv A B r B.length st) : LcsInv A B (r+1) 0 st := by
  have hiff : ∀ a b : Nat,
      ProcCell B.length (r+1) 0 a b ↔ ProcCell B.length r B.length a b := by
    intro a b; unfold ProcCell; omega
  refine ⟨?_, ?_, inv.dplen, inv.plen, ?_⟩
  · intro a b h
    exact inv.unproc a b (fun hp => h ((hiff a b).mpr hp))
  · intro a b
    rcases inv.pval a b with h0 | ⟨p, q, hv, h1, h2, h3, h4, h5, h6⟩
    · exact Or.inl h0
    · exact Or.inr ⟨p, q, hv, h1, h2, by omega, h4, h5, h6⟩
  · rcases inv.pmax with h0 | ⟨a, b, hp, ha, he1, he2, hd⟩
    · exact Or.inl h0
    · exact Or.inr ⟨a, b, (hiff a b).mpr hp, ha, he1, he2, hd⟩

theorem fillRow_inv {A B : List String} {G : Nat} {st : LcsState} {r : Nat}
    (hr1 : 1 ≤ r) (hrA : r ≤ A.length) :
    ∀ c : Nat, c ≤ B.length → LcsInv A B r 0 st →
      LcsInv A B r c (fillRow A B G r c st) := by
  intro c
  induction c with
  | zero => intro _ inv; exact inv
  | succ c ih =>
    intro hc inv
    exact cellStep_inv (ih (by omega) inv) hr1 hrA (by omega)

theorem fillTable_inv {A B : List String} {G : Nat} :
    ∀ i : Nat, i ≤ A.length →
      LcsInv A B (i+1) 0 (fillTable A B G B.length i lcsInit) := by
  intro i
  induction i with
  | zero => intro _; exact lcsInit_inv A B
  | succ i ih =>
    intro hi
    exact lcsInv_row_end
      (fillRow_inv (by omega) (by omega) B.length (le_refl _) (ih (by omega)))

/-- The invariant holds of the fully filled DP state. -/
theorem lcsFill_inv (A B : List String) (G : Nat) :
    LcsInv A B (A.length + 1) 0 (lcsFill A B G) :=
  fillTable_inv A.length (le_refl _)

theorem getD_mem_of_lt {α : Type} (l : List α) (n : Nat) (d : α) (h : n < l.length) :
    l.getD n d ∈ l := by
  rw [List.getD_eq_getElem?_getD, List.getElem?_eq_getElem h]
  exact List.getElem_mem h

theorem getD_map_fst (l : List (Int × Int)) (k : Nat) (h : k < l.length) :
    (l.map Prod.fst).getD k 0 = (l.getD k ((0 : Int), (0 : Int))).1 := by
  rw [List.getD_eq_getElem?_getD, List.getD_eq_getElem?_getD,
    List.getElem?_eq_getElem (by simpa using h), List.getElem?_eq_getElem h]
  simp

theorem getD_map_snd (l : List (Int × Int)) (k : Nat) (h : k < l.length) :
    (l.map Prod.snd).getD k 0 = (l.getD k ((0 : Int), (0 : Int))).2 := by
  rw [List.getD_eq_getElem?_getD, List.getD_eq_getElem?_getD,
    List.getElem?_eq_getElem (by simpa using h), List.getElem?_eq_getElem h]
  simp

/-- Claim C1: for every pair of comparable-string sequences and every gap
budget, the two index lists returned by `lcs_indicies_` have equal
length, both are strictly ascending, their common length equals the
maximum alignment length `maxLength` recorded in the DP table, and every
aligned pair of indices is in range and names equal elements of `A` and
`B`. -/
theorem lcs_indicies_correct (A B : List String) (G : Nat) :
    (lcs_indicies_ A B G).1.length = (lcs_indicies_ A B G).2.length ∧
    (lcs_indicies_ A B G).1.Chain' (· < ·) ∧
    (lcs_indicies_ A B G).2.Chain' (· < ·) ∧
    (lcs_indicies_ A B G).1.length = (lcsFill A B G).maxLength ∧
    (∀ k : Nat, k < (lcs_indicies_ A B G).1.length →
      0 ≤ (lcs_indicies_ A B G).1.getD k 0 ∧
      ((lcs_indicies_ A B G).1.getD k 0).toNat < A.length ∧
      0 ≤ (lcs_indicies_ A B G).2.getD k 0 ∧
      ((lcs_indicies_ A B G).2.getD k 0).toNat < B.length ∧
      A.getD ((lcs_indicies_ A B G).1.getD k 0).toNat "" =
        B.getD ((lcs_indicies_ A B G).2.getD k 0).toNat "") := by
  have inv := lcsFill_inv A B G
  by_cases h0 : (lcsFill A B G).maxLength = 0
  · have he : lcs_indicies_ A B G = ([], []) := by
      simp only [lcs_indicies_, if_pos h0]
    rw [he]
    simp [h0]
  · rcases inv.pmax with hbad | ⟨a, b, hproc, haA, hea, heb, hdp⟩
    · exact absurd hbad h0
    · have htoa : (lcsFill A B G).endA.toNat = a := by rw [hea]; simp
      have htob : (lcsFill A B G).endB.toNat = b := by rw [heb]; simp
      have hplen := inv.plen_any a b (A.length + B.length + 2) (by omega)
      rcases inv.pval a b with hnil | ⟨p, q, hv, hpa, hqb, _, hpA, hqB, hmatch⟩
      · rw [hnil, backtrack_nil] at hplen
        rw [hdp] at hplen
        simp at hplen
        exact absurd hplen h0
      · have hres : lcs_indicies_ A B G =
            (((backtrack (lcsFill A B G).prev (A.length + B.length + 2)
                ((p : Int), (q : Int))).map Prod.fst).reverse,
             ((backtrack (lcsFill A B G).prev (A.length + B.length + 2)
                ((p : Int), (q : Int))).map Prod.snd).reverse) := by
          simp only [lcs_indicies_, if_neg h0, htoa, htob, hv]
        have hgood := backtrack_good inv.prevOK p q (A.length + B.length + 2)
          (by omega) hpA hqB hmatch
        rw [hv] at hplen
        set L := backtrack (lcsFill A B G).prev (A.length + B.length + 2)
          ((p : Int), (q : Int)) with hLdef
        have hlen : L.length = (lcsFill A B G).maxLength := by
          omega
        have hlen1 : (lcs_indicies_ A B G).1.length = L.length := by
          rw [hres]
          simp
        have hlen2 : (lcs_indicies_ A B G).2.length = L.length := by
          rw [hres]
          simp
        refine ⟨by rw [hlen1, hlen2], ?_, ?_, by rw [hlen1, hlen], ?_⟩
        · -- IA strictly ascending
          rw [hres]
          simp only []
          rw [List.chain'_reverse]
          rw [List.chain'_map]
          exact List.Chain'.imp (fun x y h => h.1) hgood.1
        · -- IB strictly ascending
          rw [hres]
          simp only []
          rw [List.chain'_reverse]
          rw [List.chain'_map]
          exact List.Chain'.imp (fun x y h => h.2) hgood.1
        · -- per-index properties
          intro k hk
          rw [hlen1] at hk
          have hkk : k < L.reverse.length := by simpa using hk
          have e1 : (lcs_indicies_ A B G).1.getD k 0 =
              (L.reverse.getD k ((0 : Int), (0 : Int))).1 := by
            rw [hres]
            simp only []
            rw [← List.map_reverse, getD_map_fst _ _ hkk]
          have e2 : (lcs_indicies_ A B G).2.getD k 0 =
              (L.reverse.getD k ((0 : Int), (0 : Int))).2 := by
            rw [hres]
            simp only []
            rw [← List.map_reverse, getD_map_snd _ _ hkk]
          have hmem : L.reverse.getD k ((0 : Int), (0 : Int)) ∈ L :=
            List.mem_reverse.mp (getD_mem_of_lt _ _ _ hkk)
          obtain ⟨p2, q2, hvv, _, _, hp2A, hq2B, hm2⟩ := hgood.2 _ hmem
          rw [e1, e2, hvv]
          refine ⟨by omega, ?_, by omega, ?_, ?_⟩
          · simpa using hp2A
          · simpa using hq2B
          · simpa using hm2

/-! ## Stale-boundary monotonicity and serialization -/

/-- Claim C5: across every merge the stale boundary is non-decreasing:
the early-return paths (empty transcript, empty alignment) leave it
unchanged, and the merge path sets it to
`max(stale, stale + IA[0] - IB[0]) ≥ stale`. -/
theorem merge_one_stale_monotone (t : Transcript) (nw : List Word) :
    t.get_stale_word_id ≤ (merge_one_ t nw).get_stale_word_id := by
  unfold merge_one_
  split
  · simp [Transcript.push_back, Transcript.get_stale_word_id]
  · dsimp only
    split
    · simp [Transcript.push_back, Transcript.get_stale_word_id]
    · simp only [Transcript.set_stale_word_id, Transcript.get_stale_word_id]
      exact le_max_left _ _

/-- The `words_skipped` counter of `serialize_transcript_` counts every
segment entry the fold has passed. -/
theorem serializeStep_count :
    ∀ (ws : List Word) (acc : AudioTranscript × Nat),
      (ws.foldl serializeStep acc).2 =
        acc.2 + (ws.filter (fun w => w.is_segment)).length := by
  intro ws
  induction ws with
  | nil => intro acc; simp
  | cons w ws ih =>
    intro acc
    cases w with
    | textWord ts p o =>
      simp only [List.foldl_cons, List.filter_cons]
      rw [ih]
      simp [serializeStep, Word.is_segment]
    | segment d o =>
      simp only [List.foldl_cons, List.filter_cons]
      rw [ih]
      simp [serializeStep, Word.is_segment]
      omega

/-- Amended claim C4: in every serialized `AudioTranscript`,
`active_index` equals `stale_word_id` minus the number of Segment entries
in the **entire** transcript (the code's `words_skipped` counts segments
on both sides of the stale boundary). -/
theorem serialize_active_index (t : Transcript) :
    (serialize_transcript_ t).active_index =
      t.get_stale_word_id - ((t.entries.filter (fun w => w.is_segment)).length : Int) := by
  unfold serialize_transcript_
  dsimp only
  rw [serializeStep_count]
  simp

/-- Amended claim C3: after a merge cycle that reaches
`run` + `clear_mistakes(-1)` (non-empty transcript, non-empty alignment),
every surviving entry has `occurrences ≥ 0` — the threshold `-1` removes
only entries at `-1` or below, so occurrence 0 survives. -/
theorem merge_one_occurrences_nonneg (t : Transcript) (nw : List Word) (w : Word)
    (hne : t.empty = false)
    (hia : ((lcs_indicies_ (compProject t.get_words_splice).1 (compProject nw).1
        allowed_gaps).1).isEmpty = false)
    (hmem : w ∈ (merge_one_ t nw).entries) :
    0 ≤ w.get_occurrences := by
  unfold merge_one_ at hmem
  rw [if_neg (by simp [hne])] at hmem
  dsimp only at hmem
  rw [if_neg (by simp [hia])] at hmem
  simp only [Transcript.set_stale_word_id, Transcript.clear_mistakes] at hmem
  have h := List.of_mem_filter hmem
  simp at h
  omega

theorem cellStep_nomatch {A B : List String} {G : Nat} {st : LcsState} {i j : Nat}
    (h : NoMatchState st) (hne : A.getD (i-1) "" ≠ B.getD (j-1) "") :
    NoMatchState (cellStep A B G st i j) := by
  obtain ⟨hdp, hpv, hm⟩ := h
  have hgap : ∀ s' : LcsState, (∀ a b : Nat, s'.dp a b = ⟨0, 0⟩) →
      ∀ sa sb : Nat, gapCell G s' i j sa sb = s' := by
    intro s' h' sa sb
    unfold gapCell
    rw [if_neg]
    simp [h']
  have h1 : cellStepPre A B G st i j = st := by
    unfold cellStepPre
    rw [if_neg hne, hgap st hdp, hgap st hdp, hgap st hdp]
  show NoMatchState (maxTrack (cellStepPre A B G st i j) i j)
  rw [h1]
  unfold maxTrack
  split
  · exact ⟨hdp, hpv, by simp [hdp]⟩
  · exact ⟨hdp, hpv, hm⟩

theorem fillRow_nomatch {A B : List String} {G : Nat} {st : LcsState} {r : Nat}
    (hdisj : ∀ s ∈ A, s ∉ B) (hr1 : 1 ≤ r) (hrA : r ≤ A.length) :
    ∀ c : Nat, c ≤ B.length → NoMatchState st → NoMatchState (fillRow A B G r c st) := by
  intro c
  induction c with
  | zero => intro _ h; exact h
  | succ c ih =>
    intro hc h
    refine cellStep_nomatch (ih (by omega) h) ?_
    intro heq
    have hA : A.getD (r-1) "" ∈ A := getD_mem_of_lt A (r-1) "" (by omega)
    have hB : B.getD (c+1-1) "" ∈ B := getD_mem_of_lt B (c+1-1) "" (by omega)
    rw [heq] at hA
    exact hdisj _ hA hB

theorem fillTable_nomatch {A B : List String} {G : Nat}
    (hdisj : ∀ s ∈ A, s ∉ B) :
    ∀ i : Nat, i ≤ A.length → NoMatchState (fillTable A B G B.length i lcsInit) := by
  intro i
  induction i with
  | zero => intro _; exact ⟨fun _ _ => rfl, fun _ _ => rfl, rfl⟩
  | succ i ih =>
    intro hi
    exact fillRow_nomatch hdisj (by omega) (by omega) B.length (le_refl _) (ih (by omega))

/-- When the two comparable sequences share no element, the aligner
returns empty index lists. -/
theorem lcs_indicies_disjoint (A B : List String) (G : Nat)
    (hdisj : ∀ s ∈ A, s ∉ B) : lcs_indicies_ A B G = ([], []) := by
  have h := fillTable_nomatch (G := G) hdisj A.length (le_refl _)
  unfold lcs_indicies_
  dsimp only
  rw [if_pos (show (lcsFill A B G).maxLength = 0 from h.2.2)]

/-- Claim C7: merging an update whose comparable projection shares no
element with the active tail's projection appends `NEW` verbatim: the
planner emits no operations (the aligner returns empty lists and
`merge_one_` returns before planning) and the transcript becomes the old
entries followed by all entries of `NEW` in order. -/
theorem merge_one_no_overlap (t : Transcript) (nw : List Word)
    (hne : t.empty = false)
    (hdisj : ∀ s ∈ (compProject t.get_words_splice).1, s ∉ (compProject nw).1) :
    (merge_one_ t nw).entries = t.entries ++ nw := by
  unfold merge_one_
  rw [if_neg (by simp [hne])]
  dsimp only
  rw [lcs_indicies_disjoint _ _ _ hdisj]
  simp [Transcript.push_back]

/-! ## The anchored walk -/

theorem segment_not_punct (w : Word) (h : w.is_segment = true) :
    w.is_punct = false := by
  cases w
  · simp [Word.is_segment] at h
  · rfl

/-- Amended claim C2: at a walk step where both `OLD[curA]` and
`NEW[curB]` are segments (and both cursors are short of their bounds),
the planner emits `MERGE_SEGMENTS(curA, curB)` and then — by
fall-through into rule 1.2, since the 0.1 branch neither advances a
cursor nor continues — also `CONFLICT(curA, curB)`, before advancing
both cursors. -/
theorem innerWalk_segment_segment (old nw : List Word) (nextA nextB curA curB fuel : Nat)
    (hA : curA ≠ nextA) (hB : curB ≠ nextB)
    (hsA : (old.getD curA dummyWord).is_segment = true)
    (hsB : (nw.getD curB dummyWord).is_segment = true) :
    innerWalk old nw nextA nextB (fuel+1) curA curB =
      Op.merge_segments curA curB :: Op.conflict curA curB ::
        innerWalk old nw nextA nextB fuel (curA+1) (curB+1) := by
  have hstep : innerStep old nw nextA nextB curA curB =
      ([Op.merge_segments curA curB, Op.conflict curA curB], curA+1, curB+1) := by
    unfold innerStep ruleOneChain
    rw [if_pos ⟨hA, hB, hsA, hsB⟩,
      if_neg (fun hcon => by
        have hp := hcon.2.2.1
        rw [segment_not_punct _ hsA] at hp
        exact Bool.noConfusion hp),
      if_pos ⟨hA, hB⟩]
  conv_lhs => rw [innerWalk]
  rw [if_neg (fun hcon => hA hcon.1)]
  dsimp only
  rw [hstep]
  rfl

theorem innerStep_no_matched (old nw : List Word) (nextA nextB curA curB a b : Nat) :
    Op.matched_word a b ∉ (innerStep old nw nextA nextB curA curB).1 := by
  unfold innerStep ruleOneChain
  split
  · split
    · simp
    · split
      · simp
      · split <;> simp
  · split
    · simp
    · split
      · simp
      · split
        · simp
        · split
          · simp
          · split <;> simp

theorem innerWalk_no_matched (old nw : List Word) (nextA nextB : Nat) :
    ∀ (fuel curA curB a b : Nat),
      Op.matched_word a b ∉ innerWalk old nw nextA nextB fuel curA curB := by
  intro fuel
  induction fuel with
  | zero => intro curA curB a b h; simp [innerWalk] at h
  | succ fuel ih =>
    intro curA curB a b h
    rw [innerWalk] at h
    split at h
    · simp at h
    · rw [List.mem_append] at h
      rcases h with h | h
      · exact innerStep_no_matched old nw nextA nextB curA curB a b h
      · exact ih _ _ a b h

/-- Every `MATCHED_WORD` the planner emits is the skip-translation of one
of the anchors it was given. -/
theorem planLoop_matched (old nw : List Word) (skA skB : List Nat) :
    ∀ (rest : List (Int × Int)) (p : Int × Int) (a b : Nat),
      Op.matched_word a b ∈ planLoop old nw skA skB p rest →
      ∃ v ∈ p :: rest, a = v.1.toNat + skA.getD v.1.toNat 0 ∧
        b = v.2.toNat + skB.getD v.2.toNat 0 := by
  intro rest
  induction rest with
  | nil =>
    intro p a b h
    rw [planLoop] at h
    rcases List.mem_cons.mp h with heq | h2
    · cases heq
      exact ⟨p, List.mem_cons_self _ _, rfl, rfl⟩
    · rw [List.append_nil] at h2
      exact absurd h2 (innerWalk_no_matched old nw _ _ _ _ _ _ _)
  | cons q rest2 ih =>
    intro p a b h
    rw [planLoop] at h
    rcases List.mem_cons.mp h with heq | h2
    · cases heq
      exact ⟨p, List.mem_cons_self _ _, rfl, rfl⟩
    · rcases List.mem_append.mp h2 with h3 | h3
      · exact absurd h3 (innerWalk_no_matched old nw _ _ _ _ _ _ _)
      · obtain ⟨v, hv, e1, e2⟩ := ih q a b h3
        exact ⟨v, List.mem_cons_of_mem _ hv, e1, e2⟩

/-! ## The comparable projection and anchor safety -/

/-- The skip vector of the comparable projection translates each kept
position back to the absolute position of an entry whose comparable form
is the kept string, which is non-empty. -/
theorem compProjectAux_spec :
    ∀ (ws : List Word) (k j : Nat), j < (compProjectAux ws k).1.length →
      ∃ s : Nat, (compProjectAux ws k).2.getD j 0 = k + s ∧ s + j < ws.length ∧
        (ws.getD (s + j) dummyWord).get_comparable = (compProjectAux ws k).1.getD j "" ∧
        (compProjectAux ws k).1.getD j "" ≠ "" := by
  intro ws
  induction ws with
  | nil => intro k j h; simp [compProjectAux] at h
  | cons w ws ih =>
    intro k j h
    by_cases hcw : w.get_comparable = ""
    · have heq : compProjectAux (w :: ws) k = compProjectAux ws (k+1) := by
        simp [compProjectAux, hcw]
      rw [heq] at h ⊢
      obtain ⟨s, e1, e2, e3, e4⟩ := ih (k+1) j h
      refine ⟨s+1, by rw [e1]; omega, by simp only [List.length_cons]; omega, ?_, e4⟩
      rw [show s+1+j = (s+j)+1 by omega, List.getD_cons_succ]
      exact e3
    · have heq : compProjectAux (w :: ws) k =
          (w.get_comparable :: (compProjectAux ws k).1, k :: (compProjectAux ws k).2) := by
        simp [compProjectAux, hcw]
      rw [heq] at h ⊢
      cases j with
      | zero =>
        exact ⟨0, by simp, by simp, by simp, by simpa using hcw⟩
      | succ j =>
        simp only [List.length_cons] at h
        obtain ⟨s, e1, e2, e3, e4⟩ := ih k j (by omega)
        refine ⟨s, ?_, by simp only [List.length_cons]; omega, ?_, ?_⟩
        · simpa [List.getD_cons_succ] using e1
        · rw [show s + (j+1) = (s+j)+1 by omega, List.getD_cons_succ, List.getD_cons_succ]
          exact e3
        · simpa [List.getD_cons_succ] using e4

theorem comparable_ne_not_segment (w : Word) (h : w.get_comparable ≠ "") :
    w.is_segment = false ∧ w.is_punct = false := by
  cases w with
  | textWord ts p o =>
    refine ⟨rfl, ?_⟩
    cases p
    · rfl
    · exact absurd rfl h
  | segment d o => exact absurd rfl h

theorem mem_zip_getD {l1 l2 : List Int} {v : Int × Int} (h : v ∈ l1.zip l2) :
    ∃ k : Nat, k < l1.length ∧ k < l2.length ∧
      v.1 = l1.getD k 0 ∧ v.2 = l2.getD k 0 := by
  induction l1 generalizing l2 with
  | nil => simp at h
  | cons x l1 ih =>
    cases l2 with
    | nil => simp at h
    | cons y l2 =>
      rw [List.zip_cons_cons] at h
      rcases List.mem_cons.mp h with rfl | h2
      · exact ⟨0, by simp, by simp, rfl, rfl⟩
      · obtain ⟨k, h1, h1', e1, e2⟩ := ih h2
        exact ⟨k+1, by simp [h1], by simp [h1'], by simpa using e1, by simpa using e2⟩

/-- Claim C9: every `MATCHED_WORD` operation the planner emits (with the
aligner's index lists and the skip vectors computed exactly as
`merge_one_` does) refers, after skip-translation, to in-range absolute
indices at which `OLD` and `NEW` hold non-segment, non-punctuation
entries with equal non-empty comparable forms. -/
theorem planner_matched_safety (old nw : List Word) (a b : Nat)
    (hmem : Op.matched_word a b ∈
      planOps old nw
        (lcs_indicies_ (compProject old).1 (compProject nw).1 allowed_gaps).1
        (lcs_indicies_ (compProject old).1 (compProject nw).1 allowed_gaps).2
        (compProject old).2 (compProject nw).2) :
    a < old.length ∧ b < nw.length ∧
    (old.getD a dummyWord).is_segment = false ∧
    (old.getD a dummyWord).is_punct = false ∧
    (nw.getD b dummyWord).is_segment = false ∧
    (nw.getD b dummyWord).is_punct = false ∧
    (old.getD a dummyWord).get_comparable = (nw.getD b dummyWord).get_comparable ∧
    (old.getD a dummyWord).get_comparable ≠ "" := by
  have hC1 := lcs_indicies_correct (compProject old).1 (compProject nw).1 allowed_gaps
  obtain ⟨hlen, _, _, _, hk⟩ := hC1
  unfold planOps at hmem
  rcases hz : ((lcs_indicies_ (compProject old).1 (compProject nw).1 allowed_gaps).1).zip
      (lcs_indicies_ (compProject old).1 (compProject nw).1 allowed_gaps).2 with _ | ⟨p, rest⟩
  · rw [hz] at hmem
    simp at hmem
  · rw [hz] at hmem
    obtain ⟨v, hv, ea, eb⟩ := planLoop_matched old nw _ _ rest p a b hmem
    rw [← hz] at hv
    obtain ⟨k, hk1, hk2, ev1, ev2⟩ := mem_zip_getD hv
    obtain ⟨hge1, hlt1, hge2, hlt2, hmatch⟩ := hk k hk1
    -- comparable-space indices
    rw [ev1] at ea
    rw [ev2] at eb
    -- absolute index into old
    obtain ⟨s1, f1, f2, f3, f4⟩ := compProjectAux_spec old 0
      ((lcs_indicies_ (compProject old).1 (compProject nw).1 allowed_gaps).1.getD k 0).toNat
      hlt1
    obtain ⟨s2, g1, g2, g3, g4⟩ := compProjectAux_spec nw 0
      ((lcs_indicies_ (compProject old).1 (compProject nw).1 allowed_gaps).2.getD k 0).toNat
      hlt2
    have ha : a = s1 + ((lcs_indicies_ (compProject old).1 (compProject nw).1
        allowed_gaps).1.getD k 0).toNat := by
      rw [ea]
      have : (compProject old).2 = (compProjectAux old 0).2 := rfl
      rw [this, f1]
      omega
    have hb : b = s2 + ((lcs_indicies_ (compProject old).1 (compProject nw).1
        allowed_gaps).2.getD k 0).toNat := by
      rw [eb]
      have : (compProject nw).2 = (compProjectAux nw 0).2 := rfl
      rw [this, g1]
      omega
    rw [ha, hb]
    refine ⟨f2, g2, ?_, ?_, ?_, ?_, ?_, ?_⟩
    · exact (comparable_ne_not_segment _ (by rw [f3]; exact f4)).1
    · exact (comparable_ne_not_segment _ (by rw [f3]; exact f4)).2
    · exact (comparable_ne_not_segment _ (by rw [g3]; exact g4)).1
    · exact (comparable_ne_not_segment _ (by rw [g3]; exact g4)).2
    · rw [f3, g3]
      exact hmatch
    · rw [f3]
      exact f4

/-! ## Merging a duplicate update

The analysis needs the aligner's behavior on two identical sequences:
the DP fill puts the full diagonal into the table and backtracking
returns it.  The final value of an individual cell is recovered from the
scan states around the moment the fill wrote it. -/

theorem fillRow_keep {A B : List String} {G : Nat} {r : Nat} :
    ∀ (c : Nat) (st : LcsState) (a b : Nat), a ≠ r ∨ c < b →
      (fillRow A B G r c st).dp a b = st.dp a b ∧
      (fillRow A B G r c st).prev a b = st.prev a b := by
  intro c
  induction c with
  | zero => intro st a b _; exact ⟨rfl, rfl⟩
  | succ c ih =>
    intro st a b h
    have hne : ¬ (a = r ∧ b = c+1) := by omega
    have h2 : a ≠ r ∨ c < b := by omega
    exact ⟨by rw [show fillRow A B G r (c+1) st =
        cellStep A B G (fillRow A B G r c st) r (c+1) from rfl,
        cellStep_dp_off hne, (ih st a b h2).1],
      by rw [show fillRow A B G r (c+1) st =
        cellStep A B G (fillRow A B G r c st) r (c+1) from rfl,
        cellStep_prev_off hne, (ih st a b h2).2]⟩

theorem fillTable_keep {A B : List String} {G : Nat} :
    ∀ (m : Nat) (st : LcsState) (a b : Nat), m < a →
      (fillTable A B G B.length m st).dp a b = st.dp a b ∧
      (fillTable A B G B.length m st).prev a b = st.prev a b := by
  intro m
  induction m with
  | zero => intro st a b _; exact ⟨rfl, rfl⟩
  | succ m ih =>
    intro st a b h
    have h1 := fillRow_keep (A := A) (B := B) (G := G) (r := m+1) B.length
      (fillTable A B G B.length m st) a b (Or.inl (by omega))
    have h2 := ih st a b (by omega)
    exact ⟨by rw [show fillTable A B G B.length (m+1) st =
        fillRow A B G (m+1) B.length (fillTable A B G B.length m st) from rfl,
        h1.1, h2.1],
      by rw [show fillTable A B G B.length (m+1) st =
        fillRow A B G (m+1) B.length (fillTable A B G B.length m st) from rfl,
        h1.2, h2.2]⟩

theorem fillTable_stable {A B : List String} {G : Nat} :
    ∀ (m i : Nat), i ≤ m → ∀ (a b : Nat), a ≤ i →
      (fillTable A B G B.length m lcsInit).dp a b =
        (fillTable A B G B.length i lcsInit).dp a b ∧
      (fillTable A B G B.length m lcsInit).prev a b =
        (fillTable A B G B.length i lcsInit).prev a b := by
  intro m
  induction m with
  | zero =>
    intro i hi a b _
    have : i = 0 := by omega
    subst this
    exact ⟨rfl, rfl⟩
  | succ m ih =>
    intro i hi a b ha
    by_cases him : i = m+1
    · subst him
      exact ⟨rfl, rfl⟩
    · have h1 := fillRow_keep (A := A) (B := B) (G := G) (r := m+1) B.length
        (fillTable A B G B.length m lcsInit) a b (Or.inl (by omega))
      have h2 := ih i (by omega) a b ha
      exact ⟨by rw [show fillTable A B G B.length (m+1) lcsInit =
          fillRow A B G (m+1) B.length (fillTable A B G B.length m lcsInit) from rfl,
          h1.1, h2.1],
        by rw [show fillTable A B G B.length (m+1) lcsInit =
          fillRow A B G (m+1) B.length (fillTable A B G B.length m lcsInit) from rfl,
          h1.2, h2.2]⟩

theorem fillRow_colpeel {A B : List String} {G : Nat} {r : Nat} {st : LcsState} :
    ∀ (cc j : Nat), j ≤ cc → ∀ b : Nat, b ≤ j →
      (fillRow A B G r cc st).dp r b = (fillRow A B G r j st).dp r b ∧
      (fillRow A B G r cc st).prev r b = (fillRow A B G r j st).prev r b := by
  intro cc
  induction cc with
  | zero =>
    intro j hj b _
    have : j = 0 := by omega
    subst this
    exact ⟨rfl, rfl⟩
  | succ cc ih =>
    intro j hj b hb
    by_cases hjc : j = cc+1
    · subst hjc
      exact ⟨rfl, rfl⟩
    · have hne : ¬ (r = r ∧ b = cc+1) := by omega
      have h2 := ih j (by omega) b hb
      exact ⟨by rw [show fillRow A B G r (cc+1) st =
          cellStep A B G (fillRow A B G r cc st) r (cc+1) from rfl,
          cellStep_dp_off hne, h2.1],
        by rw [show fillRow A B G r (cc+1) st =
          cellStep A B G (fillRow A B G r cc st) r (cc+1) from rfl,
          cellStep_prev_off hne, h2.2]⟩

/-- The final value of cell `(i, j)` is what `cellStep` computed from
the state just before that cell was processed. -/
theorem lcsFill_cell {A B : List String} {G : Nat} {i j : Nat}
    (hi : 1 ≤ i) (hiA : i ≤ A.length) (hj : 1 ≤ j) (hjB : j ≤ B.length) :
    (lcsFill A B G).dp i j = (cellStep A B G (midState A B G i j) i j).dp i j ∧
    (lcsFill A B G).prev i j = (cellStep A B G (midState A B G i j) i j).prev i j := by
  obtain ⟨i2, rfl⟩ : ∃ i2, i = i2+1 := ⟨i-1, by omega⟩
  obtain ⟨j2, rfl⟩ : ∃ j2, j = j2+1 := ⟨j-1, by omega⟩
  have h1 := fillTable_stable (A := A) (B := B) (G := G) A.length (i2+1) hiA
    (i2+1) (j2+1) (le_refl _)
  have h2 := @fillRow_colpeel A B G (i2+1)
    (fillTable A B G B.length i2 lcsInit) B.length (j2+1) hjB (j2+1) (le_refl _)
  have e1 : fillTable A B G B.length (i2+1) lcsInit =
      fillRow A B G (i2+1) B.length (fillTable A B G B.length i2 lcsInit) := rfl
  have e2 : fillRow A B G (i2+1) (j2+1) (fillTable A B G B.length i2 lcsInit) =
      cellStep A B G (midState A B G (i2+1) (j2+1)) (i2+1) (j2+1) := rfl
  constructor
  · rw [show lcsFill A B G = fillTable A B G B.length A.length lcsInit from rfl,
      h1.1, e1, h2.1, e2]
  · rw [show lcsFill A B G = fillTable A B G B.length A.length lcsInit from rfl,
      h1.2, e1, h2.2, e2]

/-- The pre-cell state carries the invariant at scan position `(i, j-1)`. -/
theorem midState_inv {A B : List String} {G : Nat} {i j : Nat}
    (hi : 1 ≤ i) (hiA : i ≤ A.length) (hj : 1 ≤ j) (hjB : j ≤ B.length) :
    LcsInv A B i (j-1) (midState A B G i j) := by
  have h1 := fillTable_inv (A := A) (B := B) (G := G) (i-1) (by omega)
  rw [show i - 1 + 1 = i by omega] at h1
  exact fillRow_inv hi hiA (j-1) (by omega) h1

/-- Cells in rows before `i` already hold their final values in the
pre-cell state. -/
theorem midState_final {A B : List String} {G : Nat} {i j a b : Nat}
    (ha : a < i) (hiA : i ≤ A.length) :
    (midState A B G i j).dp a b = (lcsFill A B G).dp a b ∧
    (midState A B G i j).prev a b = (lcsFill A B G).prev a b := by
  have h1 := fillRow_keep (A := A) (B := B) (G := G) (r := i) (j-1)
    (fillTable A B G B.length (i-1) lcsInit) a b (Or.inl (by omega))
  have h2 := fillTable_stable (A := A) (B := B) (G := G) A.length (i-1) (by omega) a b
    (by omega)
  constructor
  · rw [show midState A B G i j =
      fillRow A B G i (j-1) (fillTable A B G B.length (i-1) lcsInit) from rfl,
      h1.1, show lcsFill A B G = fillTable A B G B.length A.length lcsInit from rfl, h2.1]
  · rw [show midState A B G i j =
      fillRow A B G i (j-1) (fillTable A B G B.length (i-1) lcsInit) from rfl,
      h1.2, show lcsFill A B G = fillTable A B G B.length A.length lcsInit from rfl, h2.2]

/-- Aligning a sequence with itself puts the full diagonal into the DP
table: cell `(i, i)` holds length `i` and points back to `(i-1, i-1)`. -/
theorem lcs_self_diag (C : List String) (G : Nat) :
    ∀ i : Nat, 1 ≤ i → i ≤ C.length →
      (lcsFill C C G).dp i i = ⟨i, 0⟩ ∧
      (lcsFill C C G).prev i i = (((i-1 : Nat) : Int), ((i-1 : Nat) : Int)) := by
  intro i
  induction i using Nat.strong_induction_on with
  | _ i IH =>
    intro hi1 hiC
    have hcell := lcsFill_cell (A := C) (B := C) (G := G) (i := i) (j := i) hi1 hiC hi1 hiC
    have hmid_inv := midState_inv (A := C) (B := C) (G := G) (i := i) (j := i) hi1 hiC hi1 hiC
    -- the pre-cell state's diagonal predecessor has final value of length i-1
    have hpred : ((midState C C G i i).dp (i-1) (i-1)).length = i - 1 := by
      by_cases hone : i = 1
      · subst hone
        have h00 := (hmid_inv.unproc 0 0 (by unfold ProcCell; omega)).1
        rw [show (1 : Nat) - 1 = 0 from rfl, h00]
      · have hfin := midState_final (A := C) (B := C) (G := G) (i := i) (j := i)
          (a := i-1) (b := i-1) (by omega) hiC
        rw [hfin.1, (IH (i-1) (by omega) (by omega) (by omega)).1]
    -- the match branch fires at (i, i)
    have hpre := @cellStepPre_cell C C G (midState C C G i i) i i hi1 hi1
    rcases hpre with ⟨_, hdp, hpv⟩ | ⟨hm, _⟩
    · have hdpc : (cellStep C C G (midState C C G i i) i i).dp i i =
          ⟨((midState C C G i i).dp (i-1) (i-1)).length + 1, 0⟩ := by
        rw [show cellStep C C G (midState C C G i i) i i =
          maxTrack (cellStepPre C C G (midState C C G i i) i i) i i from rfl,
          maxTrack_dp, hdp]
      have hpvc : (cellStep C C G (midState C C G i i) i i).prev i i =
          ((i : Int) - 1, (i : Int) - 1) := by
        rw [show cellStep C C G (midState C C G i i) i i =
          maxTrack (cellStepPre C C G (midState C C G i i) i i) i i from rfl,
          maxTrack_prev, hpv]
      constructor
      · rw [hcell.1, hdpc, hpred]
        congr 1
        omega
      · rw [hcell.2, hpvc]
        simp only [Prod.mk.injEq]
        constructor <;> omega
    · exact absurd rfl hm

/-- Aligning a sequence with itself records the last diagonal cell as
the best endpoint, with `maxLength` the full length. -/
theorem lcs_self_final (C : List String) (G : Nat) (hn : 1 ≤ C.length) :
    (lcsFill C C G).maxLength = C.length ∧
    (lcsFill C C G).endA = (C.length : Int) ∧
    (lcsFill C C G).endB = (C.length : Int) := by
  obtain ⟨m, hm⟩ : ∃ m, C.length = m+1 := ⟨C.length - 1, by omega⟩
  have hfin : lcsFill C C G = cellStep C C G (midState C C G C.length C.length)
      C.length C.length := by
    rw [show lcsFill C C G = fillTable C C G C.length C.length lcsInit from rfl, hm]
    rw [show fillTable C C G (m+1 : Nat) (m+1) lcsInit =
      fillRow C C G (m+1) (m+1) (fillTable C C G (m+1) m lcsInit) from rfl]
    rw [show fillRow C C G (m+1) (m+1) (fillTable C C G (m+1) m lcsInit) =
      cellStep C C G (fillRow C C G (m+1) m (fillTable C C G (m+1) m lcsInit))
        (m+1) (m+1) from rfl]
    have : fillRow C C G (m+1) m (fillTable C C G (m+1) m lcsInit) =
        midState C C G C.length C.length := by
      unfold midState
      rw [hm]
      norm_num
    rw [this, hm]
  have hmid_inv := midState_inv (A := C) (B := C) (G := G)
    (i := C.length) (j := C.length) hn (le_refl _) hn (le_refl _)
  -- the pre-cell maximum is at most length - 1
  have hmax : (midState C C G C.length C.length).maxLength ≤ C.length - 1 := by
    rcases hmid_inv.pmax with h0 | ⟨a, b, hproc, haA, _, _, hdp⟩
    · omega
    · have h1 := hmid_inv.dplen a b
      have h2 : a < C.length ∨ (a = C.length ∧ b ≤ C.length - 1) := by
        rcases hproc with ⟨_, _, _, hor⟩
        omega
      omega
  -- the new diagonal cell value is the full length
  have hpred : ((midState C C G C.length C.length).dp (C.length - 1) (C.length - 1)).length
      = C.length - 1 := by
    by_cases hone : C.length = 1
    · have h00 := (hmid_inv.unproc 0 0 (by unfold ProcCell; omega)).1
      rw [show C.length - 1 = 0 by omega, h00]
    · have hfin2 := midState_final (A := C) (B := C) (G := G)
        (i := C.length) (j := C.length) (a := C.length - 1) (b := C.length - 1)
        (by omega) (le_refl _)
      rw [hfin2.1, (lcs_self_diag C G (C.length - 1) (by omega) (by omega)).1]
  have hpre := @cellStepPre_cell C C G (midState C C G C.length C.length)
    C.length C.length hn hn
  rcases hpre with ⟨_, hdp, _⟩ | ⟨hmm, _⟩
  · have hdplen : ((cellStepPre C C G (midState C C G C.length C.length)
        C.length C.length).dp C.length C.length).length = C.length := by
      rw [hdp, hpred]
      show C.length - 1 + 1 = C.length
      omega
    rcases maxTrack_outcome (cellStepPre C C G (midState C C G C.length C.length)
        C.length C.length) C.length C.length with
      ⟨hm1, he1, he2, _⟩ | ⟨_, _, _, hlt⟩
    · rw [hfin]
      exact ⟨by rw [show cellStep C C G (midState C C G C.length C.length)
          C.length C.length = maxTrack (cellStepPre C C G (midState C C G
          C.length C.length) C.length C.length) C.length C.length from rfl,
          hm1, hdplen],
        by rw [show cellStep C C G (midState C C G C.length C.length)
          C.length C.length = maxTrack (cellStepPre C C G (midState C C G
          C.length C.length) C.length C.length) C.length C.length from rfl, he1],
        by rw [show cellStep C C G (midState C C G C.length C.length)
          C.length C.length = maxTrack (cellStepPre C C G (midState C C G
          C.length C.length) C.length C.length) C.length C.length from rfl, he2]⟩
    · rw [hdplen] at hlt
      have := @cellStepPre_max C C G (midState C C G C.length C.length)
        C.length C.length
      rw [this.1] at hlt
      omega
  · exact absurd rfl hmm

theorem backtrack_diag (C : List String) (G : Nat) :
    ∀ (i f : Nat), i < f → i + 1 ≤ C.length →
      backtrack (lcsFill C C G).prev f (((i : Nat) : Int), ((i : Nat) : Int)) =
        diagChain i := by
  intro i
  induction i with
  | zero =>
    intro f hf _
    obtain ⟨f2, rfl⟩ : ∃ f2, f = f2+1 := ⟨f-1, by omega⟩
    rw [backtrack_cast]
    have h00 := ((lcsFill_inv C C G).unproc 0 0 (by unfold ProcCell; omega)).2
    rw [h00, backtrack_nil]
    rfl
  | succ i ih =>
    intro f hf hi
    obtain ⟨f2, rfl⟩ : ∃ f2, f = f2+1 := ⟨f-1, by omega⟩
    rw [backtrack_cast]
    have hdiag := (lcs_self_diag C G (i+1) (by omega) (by omega)).2
    rw [show (i+1 : Nat) - 1 = i from rfl] at hdiag
    rw [hdiag, ih f2 (by omega) (by omega)]
    rfl

theorem diagChain_map_fst :
    ∀ i : Nat, ((diagChain i).map Prod.fst).reverse = intRange (i+1) := by
  intro i
  induction i with
  | zero => rfl
  | succ i ih =>
    show ((((i+1 : Nat) : Int)) :: (diagChain i).map Prod.fst).reverse = _
    rw [List.reverse_cons, ih]
    show _ = (List.range (i+1+1)).map Int.ofNat
    rw [List.range_succ, List.map_append]
    rfl

theorem diagChain_map_snd :
    ∀ i : Nat, ((diagChain i).map Prod.snd).reverse = intRange (i+1) := by
  intro i
  induction i with
  | zero => rfl
  | succ i ih =>
    show ((((i+1 : Nat) : Int)) :: (diagChain i).map Prod.snd).reverse = _
    rw [List.reverse_cons, ih]
    show _ = (List.range (i+1+1)).map Int.ofNat
    rw [List.range_succ, List.map_append]
    rfl

/-- Aligning a non-empty sequence with itself returns the full identity
alignment. -/
theorem lcs_self (C : List String) (G : Nat) (hn : 1 ≤ C.length) :
    lcs_indicies_ C C G = (intRange C.length, intRange C.length) := by
  obtain ⟨hmax, hendA, hendB⟩ := lcs_self_final C G hn
  have htoa : (lcsFill C C G).endA.toNat = C.length := by rw [hendA]; simp
  have htob : (lcsFill C C G).endB.toNat = C.length := by rw [hendB]; simp
  have hpv := (lcs_self_diag C G C.length hn (le_refl _)).2
  have hbt := backtrack_diag C G (C.length - 1) (C.length + C.length + 2)
    (by omega) (by omega)
  unfold lcs_indicies_
  dsimp only
  rw [if_neg (by omega), htoa, htob, hpv, hbt]
  rw [Prod.mk.injEq]
  constructor
  · rw [diagChain_map_fst (C.length - 1), show C.length - 1 + 1 = C.length by omega]
  · rw [diagChain_map_snd (C.length - 1), show C.length - 1 + 1 = C.length by omega]

theorem innerStep_diag (u : List Word) (next cur : Nat) (h : cur ≠ next) :
    ∃ ops2 : List Op, innerStep u u next next cur cur = (ops2, cur+1, cur+1) ∧
      ∀ op ∈ ops2, DiagOp op := by
  have hpunct : ¬ (cur ≠ next ∧ cur ≠ next ∧
      (u.getD cur dummyWord).is_punct ∧ ¬ (u.getD cur dummyWord).is_punct) :=
    fun hcon => hcon.2.2.2 hcon.2.2.1
  by_cases hseg : (u.getD cur dummyWord).is_segment = true
  · refine ⟨[.merge_segments cur cur, .conflict cur cur], ?_, ?_⟩
    · unfold innerStep ruleOneChain
      rw [if_pos ⟨h, h, hseg, hseg⟩, if_neg hpunct, if_pos ⟨h, h⟩]
    · intro op hop
      rcases List.mem_cons.mp hop with rfl | hop
      · exact ⟨cur, Or.inr (Or.inr rfl)⟩
      · rcases List.mem_cons.mp hop with rfl | hop
        · exact ⟨cur, Or.inr (Or.inl rfl)⟩
        · simp at hop
  · refine ⟨[.conflict cur cur], ?_, ?_⟩
    · unfold innerStep ruleOneChain
      rw [if_neg (fun hcon => hseg hcon.2.2.1),
        if_neg (fun hcon => hseg hcon.2),
        if_neg (fun hcon => hseg hcon.2),
        if_neg hpunct, if_pos ⟨h, h⟩]
    · intro op hop
      rcases List.mem_cons.mp hop with rfl | hop
      · exact ⟨cur, Or.inr (Or.inl rfl)⟩
      · simp at hop

theorem innerWalk_diag (u : List Word) (next : Nat) :
    ∀ (fuel cur : Nat) (op : Op),
      op ∈ innerWalk u u next next fuel cur cur → DiagOp op := by
  intro fuel
  induction fuel with
  | zero => intro cur op h; simp [innerWalk] at h
  | succ fuel ih =>
    intro cur op h
    rw [innerWalk] at h
    split at h
    · simp at h
    · next hcon =>
      have hne : cur ≠ next := fun he => hcon ⟨he, he⟩
      obtain ⟨ops2, hstep, hdiag⟩ := innerStep_diag u next cur hne
      rw [hstep] at h
      rcases List.mem_append.mp h with h2 | h2
      · exact hdiag op h2
      · exact ih (cur+1) op h2

theorem planLoop_diag (u : List Word) (sk : List Nat) :
    ∀ (rest : List (Int × Int)) (p : Int × Int),
      (∀ v ∈ p :: rest, v.1 = v.2) →
      ∀ op ∈ planLoop u u sk sk p rest, DiagOp op := by
  intro rest
  induction rest with
  | nil =>
    intro p hdiag op h
    have hp : p.1 = p.2 := hdiag p (List.mem_cons_self _ _)
    rw [planLoop] at h
    rcases List.mem_cons.mp h with rfl | h2
    · exact ⟨p.1.toNat + sk.getD p.1.toNat 0, Or.inl (by rw [hp])⟩
    · rw [List.append_nil] at h2
      rw [hp] at h2
      exact innerWalk_diag u u.length _ _ op h2
  | cons q rest2 ih =>
    intro p hdiag op h
    have hp : p.1 = p.2 := hdiag p (List.mem_cons_self _ _)
    have hq : q.1 = q.2 := hdiag q (List.mem_cons_of_mem _ (List.mem_cons_self _ _))
    rw [planLoop] at h
    rcases List.mem_cons.mp h with rfl | h2
    · exact ⟨p.1.toNat + sk.getD p.1.toNat 0, Or.inl (by rw [hp])⟩
    · rcases List.mem_append.mp h2 with h3 | h3
      · rw [hp] at h3
        have : (q.1.toNat + sk.getD q.1.toNat 0, q.2.toNat + sk.getD q.2.toNat 0)
            = (q.1.toNat + sk.getD q.1.toNat 0, q.1.toNat + sk.getD q.1.toNat 0) := by
          rw [hq]
        rw [this] at h3
        exact innerWalk_diag u _ _ _ op h3
      · exact ih q (fun v hv => hdiag v (List.mem_cons_of_mem _ hv)) op h3

theorem mem_zip_self (l : List Int) : ∀ v ∈ l.zip l, v.1 = v.2 := by
  induction l with
  | nil => intro v h; simp at h
  | cons x l ih =>
    intro v h
    rw [List.zip_cons_cons] at h
    rcases List.mem_cons.mp h with rfl | h2
    · rfl
    · exact ih v h2

theorem core_add_occ (w : Word) (d : Int) : (w.add_occ d).core = w.core := by
  cases w <;> rfl

theorem occ_add_occ (w : Word) (d : Int) :
    (w.add_occ d).get_occurrences = w.get_occurrences + d := by
  cases w <;> rfl

theorem core_getD {l u : List Word}
    (h : l.map Word.core = u.map Word.core) (x : Nat) :
    (l.getD x dummyWord).core = (u.getD x dummyWord).core := by
  induction l generalizing u x with
  | nil =>
    cases u with
    | nil => rfl
    | cons w u => simp at h
  | cons w l ih =>
    cases u with
    | nil => simp at h
    | cons w2 u =>
      simp only [List.map_cons, List.cons.injEq] at h
      cases x with
      | zero => exact h.1
      | succ x =>
        show (l.getD x dummyWord).core = (u.getD x dummyWord).core
        exact ih h.2 x

theorem listModify_map_core (f : Word → Word) :
    ∀ (l : List Word) (x : Nat),
      Word.core (f (l.getD x dummyWord)) = Word.core (l.getD x dummyWord) →
      (listModify f x l).map Word.core = l.map Word.core := by
  intro l
  induction l with
  | nil => intro x _; cases x <;> rfl
  | cons w l ih =>
    intro x h
    cases x with
    | zero =>
      have h2 : (f w).core = w.core := h
      show (f w :: l).map Word.core = (w :: l).map Word.core
      simp only [List.map_cons]
      rw [h2]
    | succ x =>
      have h2 : Word.core (f (l.getD x dummyWord)) = Word.core (l.getD x dummyWord) := h
      show (w :: listModify f x l).map Word.core = (w :: l).map Word.core
      simp only [List.map_cons]
      rw [ih x h2]

theorem mem_listModify (f : Word → Word) :
    ∀ (l : List Word) (x : Nat) (e : Word), e ∈ listModify f x l →
      e ∈ l ∨ ∃ e2 ∈ l, e = f e2 := by
  intro l
  induction l with
  | nil => intro x e h; cases x <;> simp [listModify] at h
  | cons w l ih =>
    intro x e h
    cases x with
    | zero =>
      rcases List.mem_cons.mp h with rfl | h2
      · exact Or.inr ⟨w, List.mem_cons_self _ _, rfl⟩
      · exact Or.inl (List.mem_cons_of_mem _ h2)
    | succ x =>
      rcases List.mem_cons.mp h with rfl | h2
      · exact Or.inl (List.mem_cons_self _ _)
      · rcases ih x e h2 with h3 | ⟨e2, he2, rfl⟩
        · exact Or.inl (List.mem_cons_of_mem _ h3)
        · exact Or.inr ⟨e2, List.mem_cons_of_mem _ he2, rfl⟩

theorem conflictWith_core (nw : List Word) (b : Nat) (w : Word)
    (h : w.core = (nw.getD b dummyWord).core) :
    (conflictWith nw b w).core = w.core := by
  cases w with
  | textWord ts p o =>
    cases hu : nw.getD b dummyWord with
    | textWord ts2 p2 o2 =>
      rw [hu] at h
      have hprob : (Word.textWord ts p o).get_prob = (Word.textWord ts2 p2 o2).get_prob :=
        congrArg WordCore.prob h
      simp only [conflictWith, hu]
      rw [if_neg]
      rw [show (Word.textWord ts2 p2 (0 : Int)).get_prob
          = (Word.textWord ts2 p2 o2).get_prob from rfl, ← hprob]
      exact lt_irrefl _
    | segment d2 o2 =>
      simp only [conflictWith, hu]
  | segment d o => rfl

theorem conflictWith_occ (nw : List Word) (b : Nat) (w : Word) :
    (conflictWith nw b w).get_occurrences = w.get_occurrences := by
  cases w with
  | textWord ts p o =>
    cases hu : nw.getD b dummyWord with
    | textWord ts2 p2 o2 =>
      simp only [conflictWith, hu]
      split <;> rfl
    | segment d2 o2 =>
      simp only [conflictWith, hu]
  | segment d o => rfl

theorem mergeSegWith_core (nw : List Word) (b : Nat) (w : Word)
    (h : w.core = (nw.getD b dummyWord).core) :
    (mergeSegWith nw b w).core = w.core := by
  cases w with
  | textWord ts p o => rfl
  | segment d o =>
    cases hu : nw.getD b dummyWord with
    | textWord ts2 p2 o2 =>
      rw [hu] at h
      exact absurd (congrArg WordCore.seg h) (by simp [Word.core, Word.is_segment])
    | segment d2 o2 =>
      rw [hu] at h
      have hprob : d.end_token.prob = d2.end_token.prob := congrArg WordCore.prob h
      simp only [mergeSegWith, hu]
      show WordCore.mk true "" false d2.end_token.prob
        = WordCore.mk true "" false d.end_token.prob
      rw [hprob]

theorem mergeSegWith_occ (nw : List Word) (b : Nat) (w : Word) :
    (mergeSegWith nw b w).get_occurrences = w.get_occurrences := by
  cases w with
  | textWord ts p o => rfl
  | segment d o =>
    cases hu : nw.getD b dummyWord with
    | textWord ts2 p2 o2 =>
      simp only [mergeSegWith, hu]
    | segment d2 o2 =>
      simp only [mergeSegWith, hu]
      rfl

/-- A diagonal operation applied with zero shift keeps the content map
and the occurrence lower bound. -/
theorem applyOp_diag (u entries : List Word) (op : Op)
    (hcore : entries.map Word.core = u.map Word.core)
    (hocc : ∀ w ∈ entries, 0 ≤ w.get_occurrences)
    (hdiag : DiagOp op) :
    ∃ entries2 : List Word, applyOp u entries 0 op = (entries2, 0) ∧
      entries2.map Word.core = u.map Word.core ∧
      ∀ w ∈ entries2, 0 ≤ w.get_occurrences := by
  obtain ⟨x, hx⟩ := hdiag
  rcases hx with rfl | rfl | rfl
  · refine ⟨listModify (fun w => w.add_occ 1) (x + 0) entries, rfl, ?_, ?_⟩
    · rw [listModify_map_core _ _ _ (core_add_occ _ _), hcore]
    · intro w hw
      rcases mem_listModify _ _ _ _ hw with hw2 | ⟨e2, he2, rfl⟩
      · exact hocc w hw2
      · rw [occ_add_occ]
        have := hocc e2 he2
        omega
  · refine ⟨listModify (conflictWith u x) (x + 0) entries, rfl, ?_, ?_⟩
    · simp only [Nat.add_zero]
      rw [listModify_map_core _ _ _ (conflictWith_core u x _ (core_getD hcore _)), hcore]
    · intro w hw
      rcases mem_listModify _ _ _ _ hw with hw2 | ⟨e2, he2, rfl⟩
      · exact hocc w hw2
      · rw [conflictWith_occ]
        exact hocc e2 he2
  · refine ⟨listModify (mergeSegWith u x) (x + 0) entries, rfl, ?_, ?_⟩
    · simp only [Nat.add_zero]
      rw [listModify_map_core _ _ _ (mergeSegWith_core u x _ (core_getD hcore _)), hcore]
    · intro w hw
      rcases mem_listModify _ _ _ _ hw with hw2 | ⟨e2, he2, rfl⟩
      · exact hocc w hw2
      · rw [mergeSegWith_occ]
        exact hocc e2 he2

theorem runDiag_fold (u : List Word) :
    ∀ (ops : List Op) (entries : List Word),
      entries.map Word.core = u.map Word.core →
      (∀ w ∈ entries, 0 ≤ w.get_occurrences) →
      (∀ op ∈ ops, DiagOp op) →
      ((ops.foldl (fun acc op => applyOp u acc.1 acc.2 op) (entries, 0)).1.map Word.core
          = u.map Word.core) ∧
      ∀ w ∈ (ops.foldl (fun acc op => applyOp u acc.1 acc.2 op) (entries, 0)).1,
        0 ≤ w.get_occurrences := by
  intro ops
  induction ops with
  | nil => intro entries h1 h2 _; exact ⟨h1, h2⟩
  | cons op ops ih =>
    intro entries h1 h2 hd
    obtain ⟨e2, happ, hc2, ho2⟩ := applyOp_diag u entries op h1 h2
      (hd op (List.mem_cons_self _ _))
    rw [List.foldl_cons, happ]
    exact ih e2 hc2 ho2 (fun op2 hop2 => hd op2 (List.mem_cons_of_mem _ hop2))

theorem textualContent_of_core :
    ∀ (l u : List Word), l.map Word.core = u.map Word.core →
      textualContent l = textualContent u := by
  intro l
  induction l with
  | nil =>
    intro u h
    cases u with
    | nil => rfl
    | cons w u => simp at h
  | cons w l ih =>
    intro u h
    cases u with
    | nil => simp at h
    | cons w2 u =>
      simp only [List.map_cons, List.cons.injEq] at h
      have hseg : w.is_segment = w2.is_segment := congrArg WordCore.seg h.1
      have hget : w.get = w2.get := congrArg WordCore.text h.1
      have hTail := ih u h.2
      rw [textualContent, textualContent, hseg, hget, hTail]

theorem intRange_not_empty (n : Nat) (hn : 1 ≤ n) : (intRange n).isEmpty = false := by
  have hlen : (intRange n).length = n := by simp [intRange]
  cases h : (intRange n).isEmpty
  · rfl
  · rw [List.isEmpty_iff] at h
    rw [h] at hlen
    simp at hlen
    omega

/-- Amended claim C6: when the transcript's active tail is exactly the
update (as right after a cold start) and the update has at least one
comparable word, re-merging the same update leaves the textual content
unchanged: the aligner returns the identity alignment, the planner emits
only `MATCHED_WORD` / `CONFLICT` / `MERGE_SEGMENTS` at coinciding
positions, none of which alters any entry's text, and the pruning pass
removes nothing.  In general a second merge is **not** textually
idempotent (see the counterexample). -/
theorem merge_one_duplicate_textual (u : List Word)
    (hc : (compProject u).1 ≠ [])
    (hocc : ∀ w ∈ u, 0 ≤ w.get_occurrences) :
    textualContent ((merge_one_ ⟨u, 0⟩ u).entries) = textualContent u := by
  have hu : u ≠ [] := by
    intro h
    subst h
    exact hc rfl
  have hn : 1 ≤ (compProject u).1.length := by
    cases h2 : (compProject u).1 with
    | nil => exact absurd h2 hc
    | cons a l => simp [h2]
  have hsplice : (Transcript.mk u 0).get_words_splice = u := by
    simp [Transcript.get_words_splice]
  unfold merge_one_
  rw [if_neg (by simp [Transcript.empty, List.isEmpty_iff, hu])]
  dsimp only
  rw [hsplice, lcs_self (compProject u).1 allowed_gaps hn,
    if_neg (by simp [intRange_not_empty _ hn])]
  have hdiag : ∀ op ∈ planOps u u (intRange (compProject u).1.length)
      (intRange (compProject u).1.length) (compProject u).2 (compProject u).2,
      DiagOp op := by
    unfold planOps
    cases hz : (intRange (compProject u).1.length).zip
        (intRange (compProject u).1.length) with
    | nil => intro op h; simp at h
    | cons p rest =>
      intro op h
      refine planLoop_diag u (compProject u).2 rest p ?_ op h
      intro v hv
      rw [← hz] at hv
      exact mem_zip_self _ v hv
  have hrun := runDiag_fold u
    (planOps u u (intRange (compProject u).1.length)
      (intRange (compProject u).1.length) (compProject u).2 (compProject u).2)
    u rfl hocc hdiag
  simp only [Transcript.set_stale_word_id, Transcript.clear_mistakes, Transcript.run]
  rw [List.filter_eq_self.mpr ?hall]
  case hall =>
    intro a ha
    simp only [decide_eq_true_eq]
    have := hrun.2 a (by simpa using ha)
    omega
  exact textualContent_of_core _ _ (by simpa using hrun.1)

/-! ## The inference polling loop -/

theorem waitForData_empty :
    ∀ (f t2 : Nat), waitForData (fun _ => true) f t2 =
      (List.replicate f (HandlerEvent.sleep_ms 15), none) := by
  intro f
  induction f with
  | zero => intro t2; rfl
  | succ f ih =>
    intro t2
    rw [waitForData, if_pos rfl, ih (t2+1)]
    rfl

theorem filter_cancel_replicate_sleep (n : Nat) :
    (List.replicate n (HandlerEvent.sleep_ms 15)).filter
      (fun x => x = HandlerEvent.check_cancel) = [] := by
  induction n with
  | zero => rfl
  | succ n ih => simp [List.replicate_succ, List.filter_cons, ih]

/-- Amended claim C10: while no data arrives on the ring, the handler
checks cancellation (and the timeout) exactly once per outer batch
iteration, **before** entering the blocking empty-ring wait; inside the
wait it only sleeps in 15 ms intervals without re-checking cancellation,
so a cancellation issued while the ring stays empty is not observed
until data arrives. -/
theorem handler_cancel_once_while_empty (outer wf t : Nat) :
    handlerTrace (fun _ => true) (outer+1) wf t =
      HandlerEvent.check_timeout :: HandlerEvent.check_cancel ::
        List.replicate wf (HandlerEvent.sleep_ms 15) ∧
    countEvent HandlerEvent.check_cancel
      (handlerTrace (fun _ => true) (outer+1) wf t) = 1 := by
  have h1 : handlerTrace (fun _ => true) (outer+1) wf t =
      HandlerEvent.check_timeout :: HandlerEvent.check_cancel ::
        List.replicate wf (HandlerEvent.sleep_ms 15) := by
    rw [handlerTrace]
    dsimp only
    rw [waitForData_empty wf t]
    simp
  refine ⟨h1, ?_⟩
  rw [h1]
  unfold countEvent
  simp [List.filter_cons, filter_cancel_replicate_sleep]

/-- Counterexample to claim C10 as stated: with the ring permanently
empty, one batch iteration performs three 15 ms polling-loop iterations
but only a single cancellation check — cancellation is not checked once
per polling loop iteration, so a cancellation request issued while no
data arrives goes unobserved. -/
theorem handler_polling_counterexample :
    handlerTrace (fun _ => true) 1 3 0 =
      [HandlerEvent.check_timeout, HandlerEvent.check_cancel,
       HandlerEvent.sleep_ms 15, HandlerEvent.sleep_ms 15, HandlerEvent.sleep_ms 15] ∧
    countEvent HandlerEvent.check_cancel (handlerTrace (fun _ => true) 1 3 0) = 1 ∧
    ¬ (countEvent (HandlerEvent.sleep_ms 15) (handlerTrace (fun _ => true) 1 3 0) ≤
        countEvent HandlerEvent.check_cancel (handlerTrace (fun _ => true) 1 3 0)) := by
  decide

/-! ## Claim theorems at concrete inputs -/

/-- Claim C8 (evaluation at the failing input): a `WhisperTokens` message
whose first token is a punctuation mark makes `deserialize_msg_` flush
the empty work-in-progress token list without the emptiness guard the
other flush sites have, emitting a TextWord with an **empty** token
list — violating the invariant that every TextWord's token list is
non-empty. -/
theorem deserialize_empty_tokens_bug :
    deserialize_msg_ ⟨0, [","], [1], [], [], []⟩ =
      [Word.textWord [] false 1, Word.textWord [⟨",", 1⟩] true 1] ∧
    Word.textWord [] false 1 ∈ deserialize_msg_ ⟨0, [","], [1], [], [], []⟩ := by
  decide

/-- Counterexample to claim C2 as stated: at the segment–segment
coincidence step (absolute position 1 on both sides) the planner emits
TWO operations, `MERGE_SEGMENTS(1,1)` **and** `CONFLICT(1,1)` — rule 0.1
pushes the merge but neither advances a cursor nor continues, so control
falls through into rule 1.2. -/
theorem planner_segment_step_two_ops :
    c2Plan = [Op.matched_word 0 0, Op.merge_segments 1 1, Op.conflict 1 1,
      Op.matched_word 2 2] ∧
    Op.conflict 1 1 ∈ c2Plan := by
  decide

/-- Counterexample to claim C3 as stated: after a `run` +
`clear_mistakes(-1)` cycle the middle entry survives with occurrences 0,
so not every surviving entry has occurrences ≥ 1. -/
theorem merge_occurrence_zero_survives :
    c3Transcript.entries.map Word.get_occurrences = [2, 0, 2] ∧
    ¬ (∀ w ∈ c3Transcript.entries, 1 ≤ w.get_occurrences) := by
  decide

/-- Counterexample to claim C4 as stated: the code's `active_index`
subtracts **all** segments (here 1), while the claim's
`stale_word_id − segments_before_stale` is 1 − 0 = 1. -/
theorem serialize_active_index_counterexample :
    (serialize_transcript_ c4Transcript).active_index = 0 ∧
    c4Transcript.get_stale_word_id - (segmentsBeforeStale c4Transcript : Int) = 1 ∧
    (serialize_transcript_ c4Transcript).active_index ≠
      c4Transcript.get_stale_word_id - (segmentsBeforeStale c4Transcript : Int) := by
  decide

/-- Counterexample to claim C6 as stated: merging the same
punctuation-only update twice duplicates it — the comparable projection
is empty, the aligner returns empty lists, and `merge_one_` appends the
update verbatim a second time, changing the textual content. -/
theorem merge_duplicate_not_idempotent :
    textualContent ((merge_one_ (merge_one_ ⟨[], 0⟩ c6Punct) c6Punct).entries)
        = [",", ","] ∧
    textualContent ((merge_one_ ⟨[], 0⟩ c6Punct).entries) = [","] ∧
    textualContent ((merge_one_ (merge_one_ ⟨[], 0⟩ c6Punct) c6Punct).entries) ≠
      textualContent ((merge_one_ ⟨[], 0⟩ c6Punct).entries) := by
  decide

/-! ## Witnesses -/

/-- Witness for C1 at a concrete input, index 0 of the alignment of
`["a","b","c"]` with `["a","c"]`. -/
theorem lcs_indicies_correct_witness :
    0 < (lcs_indicies_ ["a", "b", "c"] ["a", "c"] 4).1.length ∧
    (0 ≤ (lcs_indicies_ ["a", "b", "c"] ["a", "c"] 4).1.getD 0 0 ∧
      ((lcs_indicies_ ["a", "b", "c"] ["a", "c"] 4).1.getD 0 0).toNat <
        (["a", "b", "c"] : List String).length ∧
      0 ≤ (lcs_indicies_ ["a", "b", "c"] ["a", "c"] 4).2.getD 0 0 ∧
      ((lcs_indicies_ ["a", "b", "c"] ["a", "c"] 4).2.getD 0 0).toNat <
        (["a", "c"] : List String).length ∧
      (["a", "b", "c"] : List String).getD
          ((lcs_indicies_ ["a", "b", "c"] ["a", "c"] 4).1.getD 0 0).toNat "" =
        (["a", "c"] : List String).getD
          ((lcs_indicies_ ["a", "b", "c"] ["a", "c"] 4).2.getD 0 0).toNat "") :=
  ⟨by decide, (lcs_indicies_correct ["a", "b", "c"] ["a", "c"] 4).2.2.2.2 0 (by decide)⟩

/-- Witness for the amended C2 at a concrete segment–segment step. -/
theorem innerWalk_segment_segment_witness :
    ((0 : Nat) ≠ 1 ∧ ([mkSeg 0 1].getD 0 dummyWord).is_segment = true ∧
      ([mkSeg 2 3].getD 0 dummyWord).is_segment = true) ∧
    innerWalk [mkSeg 0 1] [mkSeg 2 3] 1 1 1 0 0 =
      Op.merge_segments 0 0 :: Op.conflict 0 0 ::
        innerWalk [mkSeg 0 1] [mkSeg 2 3] 1 1 0 1 1 :=
  ⟨⟨by decide, by decide, by decide⟩,
    innerWalk_segment_segment [mkSeg 0 1] [mkSeg 2 3] 1 1 0 0 0
      (by decide) (by decide) (by decide) (by decide)⟩

/-- Witness for the amended C3 at a concrete merge. -/
theorem merge_one_occurrences_nonneg_witness :
    ((⟨[mkWord "a" 1], 0⟩ : Transcript).empty = false ∧
      ((lcs_indicies_ (compProject (⟨[mkWord "a" 1], 0⟩ : Transcript).get_words_splice).1
        (compProject [mkWord "a" 1]).1 allowed_gaps).1).isEmpty = false ∧
      Word.textWord [⟨"a", 1⟩] false 2 ∈
        (merge_one_ ⟨[mkWord "a" 1], 0⟩ [mkWord "a" 1]).entries) ∧
    0 ≤ (Word.textWord [⟨"a", 1⟩] false 2).get_occurrences :=
  ⟨⟨by decide, by decide, by decide⟩,
    merge_one_occurrences_nonneg ⟨[mkWord "a" 1], 0⟩ [mkWord "a" 1]
      (Word.textWord [⟨"a", 1⟩] false 2) (by decide) (by decide) (by decide)⟩

/-- Witness for the amended C6 at a concrete one-word update. -/
theorem merge_one_duplicate_textual_witness :
    ((compProject [mkWord "hi" 1]).1 ≠ [] ∧
      ∀ w ∈ [mkWord "hi" 1], 0 ≤ w.get_occurrences) ∧
    textualContent ((merge_one_ ⟨[mkWord "hi" 1], 0⟩ [mkWord "hi" 1]).entries) =
      textualContent [mkWord "hi" 1] :=
  ⟨⟨by decide, by decide⟩,
    merge_one_duplicate_textual [mkWord "hi" 1] (by decide) (by decide)⟩

/-- Witness for C7 at a concrete disjoint update. -/
theorem merge_one_no_overlap_witness :
    ((⟨[mkWord "foo" 1], 0⟩ : Transcript).empty = false ∧
      ∀ s ∈ (compProject (⟨[mkWord "foo" 1], 0⟩ : Transcript).get_words_splice).1,
        s ∉ (compProject [mkWord "baz" 1]).1) ∧
    (merge_one_ ⟨[mkWord "foo" 1], 0⟩ [mkWord "baz" 1]).entries =
      [mkWord "foo" 1] ++ [mkWord "baz" 1] :=
  ⟨⟨by decide, by decide⟩,
    merge_one_no_overlap ⟨[mkWord "foo" 1], 0⟩ [mkWord "baz" 1] (by decide) (by decide)⟩

/-- Witness for C9 at a concrete one-word merge. -/
theorem planner_matched_safety_witness :
    (Op.matched_word 0 0 ∈
      planOps [mkWord "a" 1] [mkWord "a" 1]
        (lcs_indicies_ (compProject [mkWord "a" 1]).1 (compProject [mkWord "a" 1]).1
          allowed_gaps).1
        (lcs_indicies_ (compProject [mkWord "a" 1]).1 (compProject [mkWord "a" 1]).1
          allowed_gaps).2
        (compProject [mkWord "a" 1]).2 (compProject [mkWord "a" 1]).2) ∧
    (0 < ([mkWord "a" 1] : List Word).length ∧ 0 < ([mkWord "a" 1] : List Word).length ∧
      ([mkWord "a" 1].getD 0 dummyWord).is_segment = false ∧
      ([mkWord "a" 1].getD 0 dummyWord).is_punct = false ∧
      ([mkWord "a" 1].getD 0 dummyWord).is_segment = false ∧
      ([mkWord "a" 1].getD 0 dummyWord).is_punct = false ∧
      ([mkWord "a" 1].getD 0 dummyWord).get_comparable =
        ([mkWord "a" 1].getD 0 dummyWord).get_comparable ∧
      ([mkWord "a" 1].getD 0 dummyWord).get_comparable ≠ "") :=
  ⟨by decide, planner_matched_safety [mkWord "a" 1] [mkWord "a" 1] 0 0 (by decide)⟩
